import Mathlib

/-!
Shallow embedding of the core of the journals-keyword-searching repository:
the cursor-paginated fetch engine and per-pair output loop of
src/authors_works.py, and the name-normalization / identity-grouping /
aggregation pass of src/authors_works_aggregate.py.

Python strings are modelled as lists of Unicode code points (`PyStr`).
The Unicode tables used by `unicodedata.normalize('NFKD', ...)`,
`unicodedata.combining`, the `\w`/`\s` regex classes and `str.lower()` are
modelled on the character ranges relevant to the repository's data
(ASCII, Latin-1, Latin Extended, Greek, Hebrew); characters outside the
modelled ranges behave as undecomposable, case-less word or non-word
characters according to the range tables below.
-/

set_option maxRecDepth 16000

/-- A Python string: its sequence of Unicode code points. -/
abbrev PyStr := List Nat

/-- Code points of a Lean string literal, for concrete test inputs. -/
def ofString (s : String) : PyStr := s.data.map Char.toNat

/-- Association-list lookup (first match wins), modelling Python dict lookup. -/
def alookup {α β : Type} [DecidableEq α] : List (α × β) → α → Option β
  | [], _ => none
  | p :: m, k => if k = p.1 then some p.2 else alookup m k

/-- Python whitespace (`\s` in `re`, and the defaults of `str.strip`). -/
def isPySpace (v : Nat) : Bool :=
  v == 9 || v == 10 || v == 11 || v == 12 || v == 13 ||
  v == 28 || v == 29 || v == 30 || v == 31 || v == 32 ||
  v == 133 || v == 160 || v == 5760 || (8192 ≤ v && v ≤ 8202) ||
  v == 8232 || v == 8233 || v == 8239 || v == 8287 || v == 12288

/-- Python word characters (`\w` in `re`): alphanumerics and underscore,
over the modelled ranges (ASCII, Latin-1 letters and letter/digit signs,
Latin Extended, Greek letters, Hebrew letters). -/
def isWordChar (v : Nat) : Bool :=
  (48 ≤ v && v ≤ 57) || (65 ≤ v && v ≤ 90) || v == 95 || (97 ≤ v && v ≤ 122) ||
  v == 170 || v == 178 || v == 179 || v == 181 || v == 185 || v == 186 ||
  (192 ≤ v && v ≤ 255 && !(v == 215) && !(v == 247)) ||
  (256 ≤ v && v ≤ 591) ||
  (913 ≤ v && v ≤ 937 && !(v == 930)) || (945 ≤ v && v ≤ 969) ||
  (1488 ≤ v && v ≤ 1514)

/-- Combining marks (`unicodedata.combining(c) != 0`), over the modelled
blocks: Combining Diacritical Marks, Cyrillic marks, Hebrew points,
Combining Marks for Symbols. -/
def isCombining (v : Nat) : Bool :=
  (768 ≤ v && v ≤ 879) || (1155 ≤ v && v ≤ 1161) ||
  (1425 ≤ v && v ≤ 1469) || v == 1471 || v == 1473 || v == 1474 || v == 1479 ||
  (8400 ≤ v && v ≤ 8447)

/-- `str.lower()` on one code point, over the modelled cased ranges
(ASCII, Latin-1, Greek capitals). -/
def pyLower (v : Nat) : Nat :=
  if 65 ≤ v ∧ v ≤ 90 then v + 32
  else if 192 ≤ v ∧ v ≤ 222 ∧ ¬(v = 215) then v + 32
  else if 913 ≤ v ∧ v ≤ 937 ∧ ¬(v = 930) then v + 32
  else v

/-- `str.upper()` on one code point, over the modelled cased ranges. -/
def pyUpper (v : Nat) : Nat :=
  if 97 ≤ v ∧ v ≤ 122 then v - 32
  else if 224 ≤ v ∧ v ≤ 254 ∧ ¬(v = 247) then v - 32
  else if 945 ≤ v ∧ v ≤ 969 ∧ ¬(v = 962) then v - 32
  else v

/-- NFKD decompositions of the modelled characters (Latin-1 letters with
diacritics, and the Latin-1 compatibility letter/digit signs).  Each value
is fully decomposed, as NFKD requires. -/
def decompTable : List (Nat × List Nat) :=
  [(0xAA, [0x61]), (0xB2, [0x32]), (0xB3, [0x33]), (0xB5, [0x3BC]),
   (0xB9, [0x31]), (0xBA, [0x6F]),
   (0xC0, [0x41, 0x300]), (0xC1, [0x41, 0x301]), (0xC2, [0x41, 0x302]),
   (0xC3, [0x41, 0x303]), (0xC4, [0x41, 0x308]), (0xC5, [0x41, 0x30A]),
   (0xC7, [0x43, 0x327]),
   (0xC8, [0x45, 0x300]), (0xC9, [0x45, 0x301]), (0xCA, [0x45, 0x302]),
   (0xCB, [0x45, 0x308]),
   (0xCC, [0x49, 0x300]), (0xCD, [0x49, 0x301]), (0xCE, [0x49, 0x302]),
   (0xCF, [0x49, 0x308]),
   (0xD1, [0x4E, 0x303]),
   (0xD2, [0x4F, 0x300]), (0xD3, [0x4F, 0x301]), (0xD4, [0x4F, 0x302]),
   (0xD5, [0x4F, 0x303]), (0xD6, [0x4F, 0x308]),
   (0xD9, [0x55, 0x300]), (0xDA, [0x55, 0x301]), (0xDB, [0x55, 0x302]),
   (0xDC, [0x55, 0x308]), (0xDD, [0x59, 0x301]),
   (0xE0, [0x61, 0x300]), (0xE1, [0x61, 0x301]), (0xE2, [0x61, 0x302]),
   (0xE3, [0x61, 0x303]), (0xE4, [0x61, 0x308]), (0xE5, [0x61, 0x30A]),
   (0xE7, [0x63, 0x327]),
   (0xE8, [0x65, 0x300]), (0xE9, [0x65, 0x301]), (0xEA, [0x65, 0x302]),
   (0xEB, [0x65, 0x308]),
   (0xEC, [0x69, 0x300]), (0xED, [0x69, 0x301]), (0xEE, [0x69, 0x302]),
   (0xEF, [0x69, 0x308]),
   (0xF1, [0x6E, 0x303]),
   (0xF2, [0x6F, 0x300]), (0xF3, [0x6F, 0x301]), (0xF4, [0x6F, 0x302]),
   (0xF5, [0x6F, 0x303]), (0xF6, [0x6F, 0x308]),
   (0xF9, [0x75, 0x300]), (0xFA, [0x75, 0x301]), (0xFB, [0x75, 0x302]),
   (0xFC, [0x75, 0x308]), (0xFD, [0x79, 0x301]), (0xFF, [0x79, 0x308])]

/-- One character's NFKD decomposition (identity off the table). -/
def charDecomp (v : Nat) : List Nat :=
  match alookup decompTable v with
  | some l => l
  | none => [v]

/-- `unicodedata.normalize('NFKD', s)`.  Canonical reordering of combining
marks is omitted: it permutes only combining marks, all of which the very
next step of `normalize_name` removes, so the composed function is
unaffected. -/
def nfkd (s : PyStr) : PyStr := (s.map charDecomp).flatten

/-- Strip characters p for which the predicate holds from both ends
(`str.strip` with a character class). -/
def pyStripOn (p : Nat → Bool) (l : PyStr) : PyStr :=
  ((l.dropWhile p).reverse.dropWhile p).reverse

/-- `str.strip()` (no arguments): strip whitespace from both ends. -/
def pyStrip (l : PyStr) : PyStr := pyStripOn isPySpace l

/-- Characters kept by the filter step of normalize_name:
the complement of the regex class in re.sub of aggregate source line 17. -/
def keepChar (v : Nat) : Bool := isWordChar v || isPySpace v || v == 45

/-- re.sub of aggregate source line 19: replace each maximal run of
hyphens/whitespace by a single ASCII space. -/
def collapseSep : PyStr → PyStr
  | [] => []
  | c :: rest =>
    let t := collapseSep rest
    if c == 45 || isPySpace c then
      if t.head? = some 32 then t else 32 :: t
    else c :: t

/-- normalize_name from src/authors_works_aggregate.py lines 10-23:
empty-string early return, NFKD, strip combining marks, drop characters
outside letters/digits/whitespace/underscore/hyphen, collapse hyphen and
whitespace runs to single spaces, lowercase, strip. -/
def normalize_name (s : PyStr) : PyStr :=
  if s = [] then []
  else
    pyStrip ((collapseSep (((nfkd s).filter (fun v => !isCombining v)).filter keepChar)).map pyLower)

/-! ### The aggregator (src/authors_works_aggregate.py, aggregate_authors) -/

/-- Strict lexicographic order on code-point strings: Python string `<`. -/
def strLt : PyStr → PyStr → Bool
  | [], [] => false
  | [], _ :: _ => true
  | _ :: _, [] => false
  | a :: s, b :: t => if a < b then true else if b < a then false else strLt s t

/-- Insert into a strictly sorted duplicate-free list, keeping it so.
Python sets are modelled as such lists, so that the `sorted(...)` the
source applies on output is the list itself. -/
def insertOrd {α : Type} [DecidableEq α] (lt : α → α → Bool) (x : α) : List α → List α
  | [] => [x]
  | y :: t => if lt x y then x :: y :: t else if x = y then y :: t else y :: insertOrd lt x t

/-- Numeric value of a nonempty all-ASCII-digit string. -/
def digitsVal (l : PyStr) : Option Nat :=
  if l ≠ [] ∧ l.all (fun v => 48 ≤ v && v ≤ 57) then
    some (l.foldl (fun a v => a * 10 + (v - 48)) 0)
  else none

/-- Python `int(s)`: strip whitespace, optional sign, decimal digits;
`none` models the ValueError branch.  (Underscore digit separators and
non-ASCII decimal digits are outside the modelled character ranges.) -/
def parsePyInt (s : PyStr) : Option Int :=
  match pyStrip s with
  | 43 :: ds => (digitsVal ds).map (fun n => (n : Int))
  | 45 :: ds => (digitsVal ds).map (fun n => -(n : Int))
  | ds => (digitsVal ds).map (fun n => (n : Int))

/-- Python `s.split(';')` (keeps empty pieces). -/
def splitOnSemiAux : PyStr → PyStr → List PyStr
  | [], acc => [acc.reverse]
  | c :: rest, acc =>
    if c == 59 then acc.reverse :: splitOnSemiAux rest []
    else splitOnSemiAux rest (c :: acc)

/-- The `if field: for part in field.split(';'): part = part.strip();
if part: add` idiom of the aggregator (source lines 107-126). -/
def splitSemiClean (s : PyStr) : List PyStr :=
  if s = [] then []
  else ((splitOnSemiAux s []).map pyStrip).filter (fun x => !x.isEmpty)

/-- Python `s.split()` (no argument): split on whitespace runs. -/
def pySplitWsAux : PyStr → PyStr → List PyStr
  | [], acc => if acc = [] then [] else [acc.reverse]
  | c :: rest, acc =>
    if isPySpace c then
      if acc = [] then pySplitWsAux rest [] else acc.reverse :: pySplitWsAux rest []
    else pySplitWsAux rest (c :: acc)

/-- Python `word.capitalize()`: title-case the first character,
lowercase the rest. -/
def pyCapitalize (w : PyStr) : PyStr :=
  match w with
  | [] => []
  | c :: t => pyUpper c :: t.map pyLower

/-- Source line 135: `' '.join(word.capitalize() for word in name.split())
if name else ''`. -/
def titleCaseWords (norm : PyStr) : PyStr :=
  if norm ≠ [] then List.intercalate [32] ((pySplitWsAux norm []).map pyCapitalize)
  else []

/-- One CSV row of authors_works.csv as read by the aggregator
(csv.DictReader: every field a string). -/
structure Row where
  author_name : PyStr := []
  id : PyStr := []
  author_id : PyStr := []
  source_id : PyStr := []
  references_israel : PyStr := []
  cited_by_count : PyStr := []
  publication_date : PyStr := []
  institutions : PyStr := []
  countries : PyStr := []
  affiliations_comment : PyStr := []
deriving Repr, DecidableEq

/-- The per-group accumulator (the defaultdict value, source lines 32-42).
Python sets are sorted duplicate-free lists; the citation dict is an
association list in insertion order. -/
structure GroupData where
  author_ids : List PyStr := []
  work_ids : List PyStr := []
  specific_work_ids : List PyStr := []
  cited_by_per_work : List (PyStr × Int) := []
  years : List Int := []
  source_ids : List PyStr := []
  institutions : List PyStr := []
  countries : List PyStr := []
  affiliations : List PyStr := []
deriving Repr, DecidableEq

/-- The aggregator's mutable state (source lines 27-42): exact-name cache,
canonical-key map, group-id counter, first-normalized-name record, and the
per-group data keyed by group id.  Every allocated id 0..counter-1 has a
data entry (the allocating row touches it), and the Python dict's
insertion order is ascending id order, so `data` is total over ids. -/
structure AggState where
  nameMap : List (PyStr × Nat) := []
  normMap : List (PyStr × Nat) := []
  counter : Nat := 0
  names : List (Nat × PyStr) := []
  data : Nat → GroupData := fun _ => {}

/-- Row admission and group resolution (source lines 50-74): skip rows with
blank name or blank work id; else resolve via the exact-name cache, then
the canonical-key map, else allocate the next id and record the mappings.
Returns the updated grouper state and the resolved group id. -/
def rowGroup (st : AggState) (r : Row) : Option (AggState × Nat) :=
  let name := pyStrip r.author_name
  if name = [] then none
  else if pyStrip r.id = [] then none
  else some (
    match alookup st.nameMap name with
    | some g => (st, g)
    | none =>
      match alookup st.normMap (normalize_name name) with
      | some g => ({ st with nameMap := (name, g) :: st.nameMap }, g)
      | none =>
        let g := st.counter
        ({ st with
            nameMap := (name, g) :: st.nameMap,
            normMap := (normalize_name name, g) :: st.normMap,
            names := (g, normalize_name name) :: st.names,
            counter := g + 1 }, g))

/-- Insert a string into a sorted string set. -/
def insStr (x : PyStr) (s : List PyStr) : List PyStr := insertOrd strLt x s

/-- Insert an integer into a sorted integer set. -/
def insInt (x : Int) (s : List Int) : List Int := insertOrd (fun a b => decide (a < b)) x s

/-- The publication year a row contributes, when any (source lines
98-105): a date of length at least four whose first four characters parse
to a year in [1900, 2100]. -/
def rowYear (r : Row) : Option Int :=
  if r.publication_date ≠ [] ∧ 4 ≤ r.publication_date.length then
    match parsePyInt (r.publication_date.take 4) with
    | some y => if 1900 ≤ y ∧ y ≤ 2100 then some y else none
    | none => none
  else none

/-- Source lines 78-80: record a nonempty stripped author id. -/
def updAuthorIds (r : Row) (d : GroupData) : GroupData :=
  if pyStrip r.author_id ≠ [] then
    { d with author_ids := insStr (pyStrip r.author_id) d.author_ids }
  else d

/-- Source line 82: record the work id. -/
def updWorkIds (work : PyStr) (d : GroupData) : GroupData :=
  { d with work_ids := insStr work d.work_ids }

/-- Source lines 84-86: record a nonempty stripped source id. -/
def updSourceIds (r : Row) (d : GroupData) : GroupData :=
  if pyStrip r.source_id ≠ [] then
    { d with source_ids := insStr (pyStrip r.source_id) d.source_ids }
  else d

/-- Source lines 88-89: record the work id among the flagged works when
the provenance column reads yes/true/1 (lowercased). -/
def updSpecific (r : Row) (work : PyStr) (d : GroupData) : GroupData :=
  if r.references_israel.map pyLower ∈
      [ofString ("yes"), ofString ("true"), ofString ("1")] then
    { d with specific_work_ids := insStr work d.specific_work_ids }
  else d

/-- Source lines 91-96: record the parsed citation count under the work
id only if the work has no recorded count yet; a parse failure records
nothing. -/
def updCited (r : Row) (work : PyStr) (d : GroupData) : GroupData :=
  match parsePyInt r.cited_by_count with
  | some v =>
    if alookup d.cited_by_per_work work = none then
      { d with cited_by_per_work := d.cited_by_per_work ++ [(work, v)] }
    else d
  | none => d

/-- Source lines 98-105: record the publication year when in range. -/
def updYears (r : Row) (d : GroupData) : GroupData :=
  match rowYear r with
  | some y => { d with years := insInt y d.years }
  | none => d

/-- Source lines 107-112: record each nonempty stripped institution. -/
def updInsts (r : Row) (d : GroupData) : GroupData :=
  (splitSemiClean r.institutions).foldl
    (fun d i => { d with institutions := insStr i d.institutions }) d

/-- Source lines 114-119: record each nonempty stripped country. -/
def updCountries (r : Row) (d : GroupData) : GroupData :=
  (splitSemiClean r.countries).foldl
    (fun d c => { d with countries := insStr c d.countries }) d

/-- Source lines 121-126: record each nonempty stripped affiliation. -/
def updAffs (r : Row) (d : GroupData) : GroupData :=
  (splitSemiClean r.affiliations_comment).foldl
    (fun d a => { d with affiliations := insStr a d.affiliations }) d

/-- The per-row accumulation into one group's data (source lines 78-126),
in source order. -/
def updateGroupData (r : Row) (work : PyStr) (d : GroupData) : GroupData :=
  updAffs r (updCountries r (updInsts r (updYears r (updCited r work
    (updSpecific r work (updSourceIds r (updWorkIds work (updAuthorIds r d))))))))

/-- Processing one CSV row (one iteration of the reader loop). -/
def stepRow (st : AggState) (r : Row) : AggState :=
  match rowGroup st r with
  | none => st
  | some (st1, g) =>
    let work := pyStrip r.id
    { st1 with data := fun g' => if g' = g then updateGroupData r work (st1.data g) else st1.data g' }

/-- The state after the whole reader loop. -/
def foldState (rows : List Row) : AggState := rows.foldl stepRow {}

/-- One output record of authors_works_aggregated.csv (source lines 137-149).
Blank min/max year cells are `none`. -/
structure OutputRow where
  author_name : PyStr := []
  author_ids : PyStr := []
  works_count : Nat := 0
  specific_works_count : Nat := 0
  journals_count : Nat := 0
  cited_by_count : Int := 0
  min_year : Option Int := none
  max_year : Option Int := none
  institutions : PyStr := []
  countries : PyStr := []
  affiliations_comment : PyStr := []
deriving Repr, DecidableEq

/-- The output row of one group (source lines 132-150). -/
def outputRowOf (st : AggState) (g : Nat) : OutputRow :=
  let d := st.data g
  { author_name := titleCaseWords ((alookup st.names g).getD [])
    author_ids := List.intercalate [59] d.author_ids
    works_count := d.work_ids.length
    specific_works_count := d.specific_work_ids.length
    journals_count := d.source_ids.length
    cited_by_count := (d.cited_by_per_work.map Prod.snd).sum
    min_year := d.years.head?
    max_year := d.years.getLast?
    institutions := List.intercalate [59] d.institutions
    countries := List.intercalate [59] d.countries
    affiliations_comment := List.intercalate [59] d.affiliations }

/-- Output rows before sorting, in dict iteration order, which is group-id
order (groups are touched in allocation order). -/
def outputRowsPre (st : AggState) : List OutputRow :=
  (List.range st.counter).map (outputRowOf st)

/-- Stable insertion for the descending works_count sort: r goes before the
first element whose count is not larger, so earlier equals stay first. -/
def insByWorks (r : OutputRow) : List OutputRow → List OutputRow
  | [] => [r]
  | x :: t => if r.works_count < x.works_count then x :: insByWorks r t else r :: x :: t

/-- Source line 152: `output_rows.sort(key=works_count, reverse=True)` -
a stable descending sort. -/
def sortByWorks (l : List OutputRow) : List OutputRow := l.foldr insByWorks []

/-- aggregate_authors (source lines 26-167): the full deterministic pass
from the CSV rows to the sorted aggregated output rows. -/
def aggregate_authors (rows : List Row) : List OutputRow :=
  sortByWorks (outputRowsPre (foldState rows))

/-! ### The fetch engine (src/authors_works.py, fetch_author_works and
enrich_authors_with_all_works)

One HTTP page response is a status, a result list and the server's next
cursor.  Pages of one entity are requested strictly sequentially, so the
server is modelled as a function from the request index to the response.
The asyncio semaphores bound scheduling but do not affect the returned
values, which are zipped positionally after `gather`; the embedding
records how often each semaphore is entered. -/

/-- One `GET /works` page response. -/
structure Page (W : Type) where
  status : Nat := 200
  results : List W := []
  next_cursor : Option PyStr := none
deriving Repr, DecidableEq

/-- `cursor = next_cursor if next_cursor else None` (source line 140):
a missing or empty (falsy) cursor ends the loop. -/
def cursorOf {W : Type} (p : Page W) : Option PyStr :=
  match p.next_cursor with
  | some c => if c = [] then none else some c
  | none => none

/-- The `while cursor:` pagination loop of fetch_author_works (source lines
127-143), starting at request index k with the works accumulated so far.
Returns the accumulated works and the total number of HTTP requests made;
`none` only when the fuel bound is hit (the source loop's termination is
the server's affair).  On a non-success status the loop breaks, keeping
the accumulated pages (line 130-132); a short page (fewer than 200
results) also ends the loop (line 142-143). -/
def paginate {W : Type} (server : Nat → Page W) : Nat → Nat → List W → Option (List W × Nat)
  | 0, _, _ => none
  | fuel + 1, k, acc =>
    let p := server k
    if p.status ≠ 200 then some (acc, k + 1)
    else
      let acc' := acc ++ p.results
      if p.results.length < 200 then some (acc', k + 1)
      else
        match cursorOf p with
        | none => some (acc', k + 1)
        | some _ => paginate server fuel (k + 1) acc'

/-- fetch_author_works (source lines 115-145): enter the rate limiter once
(`async with rate_limiter:` wraps the whole pagination), then run the
pagination loop.  Returns (works, rate-limiter acquisitions, HTTP
requests). -/
def fetch_author_works {W : Type} (server : Nat → Page W) (fuel : Nat) :
    Option (List W × Nat × Nat) :=
  (paginate server fuel 0 []).map (fun r => (r.1, 1, r.2))

/-- The `gather` of one fetch per author id, in order (source lines 152-160). -/
def fetchEach {W : Type} (servers : PyStr → Nat → Page W) (fuel : Nat) :
    List PyStr → Option (List (PyStr × (List W × Nat × Nat)))
  | [] => some []
  | a :: rest =>
    match fetch_author_works (servers a) fuel, fetchEach servers fuel rest with
    | some res, some others => some ((a, res) :: others)
    | _, _ => none

/-- enrich_authors_with_all_works (source lines 148-167): gather all
fetches, then keep `author_id -> works` for authors whose fetch returned a
non-empty works list (lines 162-166). -/
def enrich_authors_with_all_works {W : Type} (servers : PyStr → Nat → Page W)
    (author_ids : List PyStr) (fuel : Nat) : Option (List (PyStr × List W)) :=
  (fetchEach servers fuel author_ids).map
    (fun l => l.filterMap (fun p => if p.2.1.isEmpty then none else some (p.1, p.2.1)))

/-! ### The per-pair output loop (src/authors_works.py, main, lines 204-226) -/

/-- The `'https://openalex.org/'` prefix stripped off OpenAlex ids. -/
def oaBase : PyStr := ofString ("https://openalex.org/")

/-- Python `s.replace(pat, '')`, fuel-structured so that it evaluates in
the kernel: each step consumes at least one character, so fuel equal to
the string length suffices. -/
def replaceAllAux : Nat → PyStr → PyStr → PyStr
  | 0, _, _ => []
  | _, [], _ => []
  | fuel + 1, c :: rest, pat =>
    if pat ≠ [] ∧ (c :: rest).take pat.length = pat then
      replaceAllAux fuel ((c :: rest).drop pat.length) pat
    else
      c :: replaceAllAux fuel rest pat

/-- Python `s.replace(pat, '')`: remove every non-overlapping occurrence,
left to right. -/
def replaceAll (s pat : PyStr) : PyStr := replaceAllAux s.length s pat

/-- An authorship's `author` object: the resolved author, when present. -/
structure AuthorJson where
  id : PyStr := []
deriving Repr, DecidableEq

/-- One authorship edge of a fetched work.  `author = none` models a
missing or empty (falsy) author object. -/
structure AuthorshipJson where
  author : Option AuthorJson := none
  raw_author_name : PyStr := []
deriving Repr, DecidableEq

/-- One fetched work, restricted to the fields the output loop reads. -/
structure WorkJson where
  id : PyStr := []
  authorships : List AuthorshipJson := []
deriving Repr, DecidableEq

/-- Quote characters stripped off raw author names (source line 63). -/
def isQuoteChar (v : Nat) : Bool :=
  v == 39 || v == 34 || v == 700 || v == 701 || v == 8217 || v == 702 || v == 96 || v == 180

/-- The fields of _extract_work_data_for_author (source lines 48-112) that
the per-pair claims are about: the output row's work id, author name,
author id and provenance flag.  The author branch mirrors lines 65-70 as
exercised by main, which calls only with a truthy author object. -/
structure PairRow where
  id : PyStr := []
  author_name : PyStr := []
  author_id : PyStr := []
  references_israel : PyStr := []
deriving Repr, DecidableEq

/-- _extract_work_data_for_author, on the modelled fields. -/
def extractWorkData (item : WorkJson) (aship : AuthorshipJson)
    (search_work_ids : List PyStr) : PairRow :=
  let wid := replaceAll item.id oaBase
  { id := wid
    author_name := if aship.raw_author_name ≠ [] then pyStripOn isQuoteChar aship.raw_author_name
                   else []
    author_id := match aship.author with
                 | some au => if au.id ≠ [] then replaceAll au.id oaBase else au.id
                 | none => []
    references_israel := if wid ∈ search_work_ids then ofString ("Yes") else ofString ("No") }

/-- The seen-pairs set and emitted rows of the output loop. -/
structure PairState where
  seen : List (PyStr × PyStr) := []
  rows : List PairRow := []
deriving Repr, DecidableEq

/-- Source lines 213-225: one authorship of one work - resolve the author
id, keep it only if it came from the search results, dedup on the
(work id, author id) pair, and emit the extracted row. -/
def processAuthorship (search_author_ids search_work_ids : List PyStr) (wid : PyStr)
    (item : WorkJson) (st : PairState) (aship : AuthorshipJson) : PairState :=
  match aship.author with
  | none => st
  | some au =>
    let cur := replaceAll au.id oaBase
    if cur ∈ search_author_ids then
      if (wid, cur) ∈ st.seen then st
      else
        let st1 : PairState := { st with seen := (wid, cur) :: st.seen }
        let wd := extractWorkData item aship search_work_ids
        if wd.id ≠ [] then { st1 with rows := st1.rows ++ [wd] } else st1
    else st

/-- Source lines 210-225: one fetched work of one author. -/
def processWork (search_author_ids search_work_ids : List PyStr)
    (st : PairState) (work : WorkJson) : PairState :=
  let wid := replaceAll work.id oaBase
  if wid ≠ [] then work.authorships.foldl (processAuthorship search_author_ids search_work_ids wid work) st
  else st

/-- Source lines 207-209: one author id of the outer loop. -/
def processAuthor (all_author_works : List (PyStr × List WorkJson))
    (search_author_ids search_work_ids : List PyStr)
    (st : PairState) (a : PyStr) : PairState :=
  match alookup all_author_works a with
  | some works => works.foldl (processWork search_author_ids search_work_ids) st
  | none => st

/-- The rows written to authors_works.csv (source lines 204-226). -/
def mainOutputRows (unique_author_ids : List PyStr)
    (all_author_works : List (PyStr × List WorkJson))
    (search_author_ids search_work_ids : List PyStr) : List PairRow :=
  (unique_author_ids.foldl
    (processAuthor all_author_works search_author_ids search_work_ids) {}).rows

/-! ### Derived views and specification-side definitions used to state the
claims -/

/-- The (group id, row) trace of the aggregator: the accepted rows in
input order, each with the group id the run assigns it. -/
def assignAux : AggState → List Row → List (Nat × Row)
  | _, [] => []
  | st, r :: rest =>
    match rowGroup st r with
    | none => assignAux (stepRow st r) rest
    | some (_, g) => (g, r) :: assignAux (stepRow st r) rest

/-- The assignment trace of a whole run. -/
def assign (rows : List Row) : List (Nat × Row) := assignAux {} rows

/-- Keep the first occurrence of each element not already seen. -/
def firstDedupAcc {α : Type} [DecidableEq α] (seen : List α) : List α → List α
  | [] => []
  | x :: t => if x ∈ seen then firstDedupAcc seen t else x :: firstDedupAcc (x :: seen) t

/-- Keep the first occurrence of each element. -/
def firstDedup {α : Type} [DecidableEq α] (l : List α) : List α := firstDedupAcc [] l

/-- The stripped work ids of the rows assigned to group g, in order, with
repetitions. -/
def groupWorkSightings (l : List (Nat × Row)) (g : Nat) : List PyStr :=
  l.filterMap (fun p => if p.1 = g then some (pyStrip p.2.id) else none)

/-- The distinct work ids attributed to group g, in first-sighting order. -/
def groupWorks (l : List (Nat × Row)) (g : Nat) : List PyStr :=
  firstDedup (groupWorkSightings l g)

/-- The citation value of the first row for (g, w) whose citation field
parses as an integer. -/
def firstCited (l : List (Nat × Row)) (g : Nat) (w : PyStr) : Option Int :=
  l.findSome? (fun p =>
    if p.1 = g ∧ pyStrip p.2.id = w then parsePyInt p.2.cited_by_count else none)

/-- Claim C3's reading of the group citation total: one value per distinct
work id, namely the value of the first row seen for (g, w) - with the
source's and the spec's zero default where that row's field does not
parse. -/
def claimFirstRowCitedSum (l : List (Nat × Row)) (g : Nat) : Int :=
  ((groupWorks l g).map (fun w =>
    match l.find? (fun p => p.1 = g ∧ pyStrip p.2.id = w) with
    | some p => (parsePyInt p.2.cited_by_count).getD 0
    | none => 0)).sum

/-- Claim C8's deduplication: drop every row whose (work_id, author_id)
tuple was already seen. -/
def dedupByPair (rows : List Row) : List Row :=
  (rows.foldl
    (fun (st : List (PyStr × PyStr) × List Row) r =>
      if (r.id, r.author_id) ∈ st.1 then st
      else ((r.id, r.author_id) :: st.1, st.2 ++ [r]))
    ([], [])).2

/-- Letters among the modelled characters: claim C7's character set is
letters, digits, whitespace and hyphen. -/
def isLetterChar (v : Nat) : Bool :=
  (65 ≤ v && v ≤ 90) || (97 ≤ v && v ≤ 122) ||
  v == 170 || v == 181 || v == 186 ||
  (192 ≤ v && v ≤ 255 && !(v == 215) && !(v == 247)) ||
  (256 ≤ v && v ≤ 591) ||
  (913 ≤ v && v ≤ 937 && !(v == 930)) || (945 ≤ v && v ≤ 969) ||
  (1488 ≤ v && v ≤ 1514)

/-- Claim C7's set: letters, digits, whitespace, hyphen. -/
def claimC7Char (v : Nat) : Bool :=
  isLetterChar v || (48 ≤ v && v ≤ 57) || isPySpace v || v == 45

/-- The deduplication key of an output row: its (work id, author id). -/
def pairKey (r : PairRow) : PyStr × PyStr := (r.id, r.author_id)

/-- Invariant of the output loop: emitted rows have pairwise distinct pair
keys, and every emitted key is in the seen set. -/
def InvPairs (st : PairState) : Prop :=
  (st.rows.map pairKey).Nodup ∧ ∀ r ∈ st.rows, pairKey r ∈ st.seen

/-- Invariant for C10: every emitted row's author id is a search-results
author id. -/
def InvAuthors (sa : List PyStr) (st : PairState) : Prop :=
  ∀ r ∈ st.rows, r.author_id ∈ sa

/-- A character that normalize_name maps to itself in isolation: a word
character with no NFKD decomposition and no case change. -/
def goodChar (v : Nat) : Bool :=
  isWordChar v && (alookup decompTable v).isNone && (pyLower v == v)

/-- Adjacent output positions never hold two spaces. -/
def noDoubleSpace (a b : Nat) : Prop := ¬(a = 32 ∧ b = 32)

/-- The canonical form normalize_name produces: self-normalizing word
characters separated by single interior spaces. -/
def Canonical (l : PyStr) : Prop :=
  (∀ c ∈ l, goodChar c = true ∨ c = 32) ∧ l.Chain' noDoubleSpace ∧
    l.head? ≠ some 32 ∧ l.getLast? ≠ some 32

/-- The Identity Grouper's run invariants (claim C4): allocated ids lie
below the counter, every id below the counter is allocated, distinct
canonical keys get distinct ids, and display names exist only for
allocated ids. -/
def GrouperInv (st : AggState) : Prop :=
  (∀ k g, alookup st.normMap k = some g → g < st.counter) ∧
  (∀ g, g < st.counter → ∃ k, alookup st.normMap k = some g) ∧
  (∀ k k' g, alookup st.normMap k = some g → alookup st.normMap k' = some g → k = k') ∧
  (∀ g n, alookup st.names g = some n → g < st.counter) ∧
  (∀ k g, alookup st.nameMap k = some g → g < st.counter)

/-- Sortedness of a string set's list representation. -/
def strSetSorted (l : List PyStr) : Prop := l.Chain' (fun a b => strLt a b = true)

/-- Sortedness of an integer set's list representation. -/
def intSetSorted (l : List Int) : Prop := l.Chain' (fun a b => a < b)

/-- All set fields of one group's data are strictly sorted. -/
def SortedGD (d : GroupData) : Prop :=
  strSetSorted d.author_ids ∧ strSetSorted d.work_ids ∧
    strSetSorted d.specific_work_ids ∧ intSetSorted d.years ∧
    strSetSorted d.source_ids ∧ strSetSorted d.institutions ∧
    strSetSorted d.countries ∧ strSetSorted d.affiliations

/-- All groups' data are sorted. -/
def SortedState (st : AggState) : Prop := ∀ g, SortedGD (st.data g)

/-- Every contribution row r makes is already present in state st
(claim C8): the row resolves through the exact-name cache, and each of
its field contributions is recorded in its group's data. -/
def absorbed (r : Row) (st : AggState) : Prop :=
  pyStrip r.author_name = [] ∨ pyStrip r.id = [] ∨
  ∃ g, alookup st.nameMap (pyStrip r.author_name) = some g ∧
    (pyStrip r.author_id ≠ [] → pyStrip r.author_id ∈ (st.data g).author_ids) ∧
    pyStrip r.id ∈ (st.data g).work_ids ∧
    (pyStrip r.source_id ≠ [] → pyStrip r.source_id ∈ (st.data g).source_ids) ∧
    (r.references_israel.map pyLower ∈
        [ofString ("yes"), ofString ("true"), ofString ("1")] →
      pyStrip r.id ∈ (st.data g).specific_work_ids) ∧
    (∀ v, parsePyInt r.cited_by_count = some v →
      alookup (st.data g).cited_by_per_work (pyStrip r.id) ≠ none) ∧
    (∀ y, rowYear r = some y → y ∈ (st.data g).years) ∧
    (∀ i ∈ splitSemiClean r.institutions, i ∈ (st.data g).institutions) ∧
    (∀ c ∈ splitSemiClean r.countries, c ∈ (st.data g).countries) ∧
    (∀ a ∈ splitSemiClean r.affiliations_comment, a ∈ (st.data g).affiliations)

/-- Pointwise containment of one group accumulator in another: every
recorded set element persists and every work id with a recorded citation
value keeps one.  Each per-row update only grows the accumulator in this
order. -/
def GDle (d d' : GroupData) : Prop :=
  (∀ x ∈ d.author_ids, x ∈ d'.author_ids) ∧
  (∀ x ∈ d.work_ids, x ∈ d'.work_ids) ∧
  (∀ x ∈ d.specific_work_ids, x ∈ d'.specific_work_ids) ∧
  (∀ w, alookup d.cited_by_per_work w ≠ none → alookup d'.cited_by_per_work w ≠ none) ∧
  (∀ y ∈ d.years, y ∈ d'.years) ∧
  (∀ x ∈ d.source_ids, x ∈ d'.source_ids) ∧
  (∀ x ∈ d.institutions, x ∈ d'.institutions) ∧
  (∀ x ∈ d.countries, x ∈ d'.countries) ∧
  (∀ x ∈ d.affiliations, x ∈ d'.affiliations)

/-- A two-page server: a full first page with a cursor, then a short final
page.  Its fetch makes two HTTP requests under one rate-limiter entry. -/
def twoPageServer : Nat → Page Nat :=
  fun k => if k = 0 then { status := 200, results := List.replicate 200 0,
                           next_cursor := some (ofString ("cur")) }
           else { status := 200, results := [1], next_cursor := none }

/-- Servers for the C1 witness: entity A gets a full page then an HTTP 500;
entity B gets one complete short page. -/
def c1Servers : PyStr → Nat → Page Nat :=
  fun i k =>
    if i = ofString ("A") then
      if k = 0 then { status := 200, results := List.replicate 200 0,
                      next_cursor := some (ofString ("c")) }
      else { status := 500, results := [], next_cursor := none }
    else
      if k = 0 then { status := 200, results := [7], next_cursor := none }
      else { status := 500, results := [], next_cursor := none }

/-- A row whose author name is whitespace-only (claim C9). -/
def wsRow : Row := { author_name := [32], id := ofString ("W1") }

/-- Claim C3's counterexample rows: same author and work, the first row's
citation cell unparseable, the second's parseable. -/
def c3Row1 : Row :=
  { author_name := ofString ("a"), id := ofString ("W"), cited_by_count := ofString ("x") }

/-- Second C3 counterexample row. -/
def c3Row2 : Row :=
  { author_name := ofString ("a"), id := ofString ("W"), cited_by_count := ofString ("5") }

/-- Two small concrete rows used by witnesses. -/
def rowAnn : Row := { author_name := ofString ("Ann"), id := ofString ("W1") }

/-- Second concrete witness row. -/
def rowBob : Row := { author_name := ofString ("Bob"), id := ofString ("W2") }

/-- Claim C8's counterexample rows: the same (work id, author id) tuple
under two different raw author names. -/
def c8RowX : Row :=
  { author_name := ofString ("X"), id := ofString ("W1"), author_id := ofString ("A1") }

/-- Second C8 counterexample row. -/
def c8RowY : Row :=
  { author_name := ofString ("Y"), id := ofString ("W1"), author_id := ofString ("A1") }

/-! ## Theorems -/

theorem foldl_inv {α σ : Type} {Inv : σ → Prop} {f : σ → α → σ}
    (h : ∀ s x, Inv s → Inv (f s x)) :
    ∀ (l : List α) (s : σ), Inv s → Inv (l.foldl f s) := by
  intro l
  induction l with
  | nil => intro s hs; exact hs
  | cons x t ih => intro s hs; exact ih (f s x) (h s x hs)

theorem extractWorkData_author_id (item : WorkJson) (aship : AuthorshipJson)
    (sw : List PyStr) (au : AuthorJson) (hau : aship.author = some au) :
    (extractWorkData item aship sw).author_id = replaceAll au.id oaBase := by
  simp only [extractWorkData, hau]
  by_cases h : au.id = []
  · simp [h, replaceAll, replaceAllAux]
  · simp [h]

theorem processAuthorship_invPairs (sa sw : List PyStr) (item : WorkJson)
    (st : PairState) (aship : AuthorshipJson) (hInv : InvPairs st) :
    InvPairs (processAuthorship sa sw (replaceAll item.id oaBase) item st aship) := by
  unfold processAuthorship
  cases hau : aship.author with
  | none => exact hInv
  | some au =>
    simp only []
    by_cases h1 : replaceAll au.id oaBase ∈ sa
    · simp only [if_pos h1]
      by_cases h2 : (replaceAll item.id oaBase, replaceAll au.id oaBase) ∈ st.seen
      · simp only [if_pos h2]; exact hInv
      · simp only [if_neg h2]
        have hkey : pairKey (extractWorkData item aship sw) =
            (replaceAll item.id oaBase, replaceAll au.id oaBase) := by
          simp only [pairKey, extractWorkData_author_id item aship sw au hau]
          rfl
        by_cases h3 : (extractWorkData item aship sw).id ≠ []
        · simp only [if_pos h3]
          constructor
          · simp only [List.map_append, List.map_cons, List.map_nil]
            rw [List.nodup_append]
            refine ⟨hInv.1, List.nodup_singleton _, ?_⟩
            intro p hp
            simp only [List.mem_singleton]
            intro hq
            rcases List.mem_map.mp hp with ⟨r, hr, hpr⟩
            have := hInv.2 r hr
            rw [hpr, hq, hkey] at this
            exact h2 this
          · intro r hr
            rcases List.mem_append.mp hr with hl | hl
            · exact List.mem_cons_of_mem _ (hInv.2 r hl)
            · rw [List.mem_singleton.mp hl, hkey]
              exact List.mem_cons_self _ _
        · simp only [if_neg h3]
          exact ⟨hInv.1, fun r hr => List.mem_cons_of_mem _ (hInv.2 r hr)⟩
    · simp only [if_neg h1]; exact hInv

theorem processWork_invPairs (sa sw : List PyStr) (st : PairState)
    (work : WorkJson) (hInv : InvPairs st) :
    InvPairs (processWork sa sw st work) := by
  unfold processWork
  by_cases h : replaceAll work.id oaBase ≠ []
  · simp only [if_pos h]
    exact foldl_inv (fun s a hs => processAuthorship_invPairs sa sw work s a hs) _ _ hInv
  · simp only [if_neg h]; exact hInv

theorem processAuthor_invPairs (aw : List (PyStr × List WorkJson))
    (sa sw : List PyStr) (st : PairState) (a : PyStr) (hInv : InvPairs st) :
    InvPairs (processAuthor aw sa sw st a) := by
  unfold processAuthor
  cases alookup aw a with
  | none => exact hInv
  | some works => exact foldl_inv (fun s w hs => processWork_invPairs sa sw s w hs) _ _ hInv

/-- C5: within one run of the per-pair pipeline, at most one output row
exists per (work_id, author_id) pair; a pair already seen is silently
dropped - no error, no second row.  The emitted rows' pair keys are
pairwise distinct, for every input. -/
theorem claim_C5_pair_dedup (unique_author_ids : List PyStr)
    (all_author_works : List (PyStr × List WorkJson))
    (search_author_ids search_work_ids : List PyStr) :
    ((mainOutputRows unique_author_ids all_author_works
        search_author_ids search_work_ids).map pairKey).Nodup := by
  have h : InvPairs (unique_author_ids.foldl
      (processAuthor all_author_works search_author_ids search_work_ids) {}) := by
    refine foldl_inv
      (fun s a hs => processAuthor_invPairs all_author_works
        search_author_ids search_work_ids s a hs) _ _ ?_
    exact ⟨List.nodup_nil, by intro r hr; cases hr⟩
  exact h.1

theorem processAuthorship_invAuthors (sa sw : List PyStr) (item : WorkJson)
    (st : PairState) (aship : AuthorshipJson) (hInv : InvAuthors sa st) :
    InvAuthors sa (processAuthorship sa sw (replaceAll item.id oaBase) item st aship) := by
  unfold processAuthorship
  cases hau : aship.author with
  | none => exact hInv
  | some au =>
    simp only []
    by_cases h1 : replaceAll au.id oaBase ∈ sa
    · simp only [if_pos h1]
      by_cases h2 : (replaceAll item.id oaBase, replaceAll au.id oaBase) ∈ st.seen
      · simp only [if_pos h2]; exact hInv
      · simp only [if_neg h2]
        by_cases h3 : (extractWorkData item aship sw).id ≠ []
        · simp only [if_pos h3]
          intro r hr
          rcases List.mem_append.mp hr with hl | hl
          · exact hInv r hl
          · rw [List.mem_singleton.mp hl, extractWorkData_author_id item aship sw au hau]
            exact h1
        · simp only [if_neg h3]; exact hInv
    · simp only [if_neg h1]; exact hInv

/-- C10: every row the per-pair pipeline emits has an author id drawn from
the search-results author-id set; authorship edges resolving outside that
set are silently excluded (source line 218's guard). -/
theorem claim_C10_author_filter (unique_author_ids : List PyStr)
    (all_author_works : List (PyStr × List WorkJson))
    (search_author_ids search_work_ids : List PyStr) :
    ∀ r ∈ mainOutputRows unique_author_ids all_author_works
        search_author_ids search_work_ids,
      r.author_id ∈ search_author_ids := by
  have h : InvAuthors search_author_ids (unique_author_ids.foldl
      (processAuthor all_author_works search_author_ids search_work_ids) {}) := by
    refine foldl_inv (fun s a hs => ?_) _ _ ?_
    · unfold processAuthor
      cases alookup all_author_works a with
      | none => exact hs
      | some works =>
        refine foldl_inv (fun s w hw => ?_) _ _ hs
        unfold processWork
        by_cases hwid : replaceAll w.id oaBase ≠ []
        · simp only [if_pos hwid]
          exact foldl_inv
            (fun s2 a2 hs2 => processAuthorship_invAuthors search_author_ids
              search_work_ids w s2 a2 hs2) _ _ hw
        · simp only [if_neg hwid]; exact hw
    · intro r hr; cases hr
  exact h

theorem claim_C10_author_filter_witness :
    ({ id := ofString ("W1"), author_name := ofString ("X"), author_id := ofString ("A1"),
       references_israel := ofString ("No") } : PairRow).author_id ∈ [ofString ("A1")] :=
  claim_C10_author_filter [ofString ("A1")]
    [(ofString ("A1"),
      [{ id := ofString ("https://openalex.org/W1"),
         authorships := [{ author := some { id := ofString ("https://openalex.org/A1") },
                           raw_author_name := ofString ("X") }] }])]
    [ofString ("A1")] [] _ (by decide)

theorem paginate_requests_pos {W : Type} (server : Nat → Page W) :
    ∀ (fuel k : Nat) (acc : List W) (r : List W × Nat),
      paginate server fuel k acc = some r → k + 1 ≤ r.2 := by
  intro fuel
  induction fuel with
  | zero => intro k acc r h; simp [paginate] at h
  | succ f ih =>
    intro k acc r h
    rw [paginate] at h
    by_cases h1 : (server k).status ≠ 200
    · simp only [if_pos h1] at h
      cases h; simp
    · simp only [if_neg h1] at h
      by_cases h2 : (server k).results.length < 200
      · simp only [if_pos h2] at h
        cases h; simp
      · simp only [if_neg h2] at h
        cases h3 : cursorOf (server k) with
        | none => rw [h3] at h; cases h; simp
        | some c =>
          rw [h3] at h
          have := ih (k + 1) (acc ++ (server k).results) r h
          omega

/-- C2, counterexample: on a two-page pagination the rate limiter is
entered once while two HTTP requests are issued - the claimed equality
"permit acquisitions = page requests" fails on the code, whose
`async with rate_limiter:` (source line 116) wraps the whole loop. -/
theorem claim_C2_counterexample :
    ∃ r, fetch_author_works twoPageServer 3 = some r ∧ r.2.1 = 1 ∧ r.2.2 = 2 ∧ r.2.1 ≠ r.2.2 :=
  ⟨(List.replicate 200 0 ++ [1], 1, 2), by decide, rfl, rfl, by decide⟩

/-- C2, amended: the Paginator enters the rate limiter exactly once per
entity fetch, holding the permit across all of that entity's page
requests (of which there is at least one); the rate bound therefore
applies per entity fetch, not per page request. -/
theorem claim_C2_amended_one_acquisition {W : Type} (server : Nat → Page W)
    (fuel : Nat) (res : List W × Nat × Nat)
    (h : fetch_author_works server fuel = some res) :
    res.2.1 = 1 ∧ 1 ≤ res.2.2 := by
  unfold fetch_author_works at h
  cases hp : paginate server fuel 0 [] with
  | none => rw [hp] at h; cases h
  | some r =>
    rw [hp] at h
    cases h
    exact ⟨rfl, paginate_requests_pos server fuel 0 [] r hp⟩

theorem claim_C2_amended_one_acquisition_witness :
    ((List.replicate 200 0 ++ [1], 1, 2) : List Nat × Nat × Nat).2.1 = 1 ∧
      1 ≤ ((List.replicate 200 0 ++ [1], 1, 2) : List Nat × Nat × Nat).2.2 :=
  claim_C2_amended_one_acquisition twoPageServer 3 _ (by decide)

/-- C1: when entity A's second page returns a non-success status after one
full successful page while entity B's fetch succeeds, the batch still
completes: the result mapping holds B's full record list and A's
accumulated first page - A's failure neither cancels nor fails B. -/
theorem claim_C1_partial_failure_isolation {W : Type}
    (servers : PyStr → Nat → Page W) (A B : PyStr) (fuel : Nat)
    (RA WB : List W) (c : PyStr)
    (hA0 : servers A 0 = { status := 200, results := RA, next_cursor := some c })
    (hRA : RA.length = 200) (hc : c ≠ [])
    (hA1 : (servers A 1).status ≠ 200)
    (hB : servers B 0 = { status := 200, results := WB, next_cursor := none })
    (hWB : WB ≠ []) (hfuel : 2 ≤ fuel) :
    enrich_authors_with_all_works servers [A, B] fuel = some [(A, RA), (B, WB)] := by
  obtain ⟨f, rfl⟩ : ∃ f, fuel = f + 1 + 1 := ⟨fuel - 2, by omega⟩
  have hfetchA : fetch_author_works (servers A) (f + 1 + 1) = some (RA, 1, 2) := by
    unfold fetch_author_works
    have h1 : paginate (servers A) (f + 1 + 1) 0 [] = some (RA, 2) := by
      rw [paginate, hA0]
      simp only [cursorOf, hRA, if_neg hc]
      norm_num
      rw [paginate]
      simp only [if_pos hA1]
    rw [h1]; rfl
  have hfetchB : fetch_author_works (servers B) (f + 1 + 1) = some (WB, 1, 1) := by
    unfold fetch_author_works
    have h1 : paginate (servers B) (f + 1 + 1) 0 [] = some (WB, 1) := by
      rw [paginate, hB]
      by_cases hl : WB.length < 200
      · simp [hl]
      · simp [hl, cursorOf]
    rw [h1]; rfl
  unfold enrich_authors_with_all_works fetchEach
  rw [hfetchA]
  unfold fetchEach
  rw [hfetchB]
  unfold fetchEach
  simp only [Option.map_some]
  have hRAne : RA.isEmpty = false := by
    cases RA with
    | nil => simp at hRA
    | cons a t => rfl
  have hWBne : WB.isEmpty = false := by
    cases WB with
    | nil => exact absurd rfl hWB
    | cons a t => rfl
  simp [hRAne, hWBne]

theorem claim_C1_partial_failure_isolation_witness :
    enrich_authors_with_all_works c1Servers [ofString ("A"), ofString ("B")] 2 =
      some [(ofString ("A"), List.replicate 200 0), (ofString ("B"), [7])] :=
  claim_C1_partial_failure_isolation c1Servers (ofString ("A")) (ofString ("B")) 2
    (List.replicate 200 0) [7] (ofString ("c"))
    (by decide) (by decide) (by decide) (by decide) (by decide) (by decide) (by decide)

/-- C9, counterexample: a row whose author name is whitespace-only is not
routed to an "unknown author" group - the aggregator's `continue` (source
lines 53-55) skips it entirely, so no group at all exists for the run. -/
theorem claim_C9_counterexample : aggregate_authors [wsRow] = [] := by decide

theorem rowGroup_none_of_blank (r : Row) (h : pyStrip r.author_name = []) :
    ∀ st, rowGroup st r = none := by
  intro st
  unfold rowGroup
  simp [h]

theorem stepRow_eq_of_blank (r : Row) (h : pyStrip r.author_name = []) :
    ∀ st, stepRow st r = st := by
  intro st
  unfold stepRow
  rw [rowGroup_none_of_blank r h]

/-- C9, amended: a row whose author name is empty or whitespace-only is
silently skipped - it creates no group, joins no group, and changes no
accumulated statistics, but does not raise an error; the run's output is
exactly that of the input without the row.  (Only a name that is nonempty
after stripping but normalizes to the empty string reaches the empty
canonical key and its shared group.) -/
theorem claim_C9_amended_blank_skipped (rows1 rows2 : List Row) (r : Row)
    (h : pyStrip r.author_name = []) :
    aggregate_authors (rows1 ++ r :: rows2) = aggregate_authors (rows1 ++ rows2) := by
  unfold aggregate_authors foldState
  rw [List.foldl_append, List.foldl_cons, stepRow_eq_of_blank r h, ← List.foldl_append]

theorem claim_C9_amended_blank_skipped_witness :
    aggregate_authors ([] ++ wsRow :: []) = aggregate_authors ([] ++ []) :=
  claim_C9_amended_blank_skipped [] [] wsRow (by decide)

/-! ### Character-level facts about the modelled Unicode tables -/

theorem decompTable_keys_range : ∀ p ∈ decompTable, 170 ≤ p.1 ∧ p.1 ≤ 255 := by decide

theorem decompTable_values_flat : ∀ p ∈ decompTable, ∀ d ∈ p.2,
    alookup decompTable d = none := by decide

theorem decompTable_keys_word : ∀ p ∈ decompTable, isWordChar p.1 = true := by decide

theorem decompTable_values_word : ∀ p ∈ decompTable, ∃ d ∈ p.2,
    isWordChar d = true ∧ isCombining d = false := by decide

theorem alookup_eq_none {α β : Type} [DecidableEq α] (m : List (α × β)) (k : α)
    (h : ∀ p ∈ m, k ≠ p.1) : alookup m k = none := by
  induction m with
  | nil => rfl
  | cons p t ih =>
    rw [alookup, if_neg (h p (List.mem_cons_self p t))]
    exact ih (fun q hq => h q (List.mem_cons_of_mem p hq))

theorem alookup_decomp_none_lt (v : Nat) (h : v < 170) : alookup decompTable v = none :=
  alookup_eq_none _ _ (fun p hp => by have := decompTable_keys_range p hp; omega)

theorem alookup_decomp_none_gt (v : Nat) (h : 255 < v) : alookup decompTable v = none :=
  alookup_eq_none _ _ (fun p hp => by have := decompTable_keys_range p hp; omega)

theorem alookup_decomp_none_notword (v : Nat) (h : isWordChar v = false) :
    alookup decompTable v = none :=
  alookup_eq_none _ _ (fun p hp heq => by
    have := decompTable_keys_word p hp
    rw [← heq] at this
    rw [this] at h
    cases h)

theorem charDecomp_of_none (v : Nat) (h : alookup decompTable v = none) :
    charDecomp v = [v] := by
  unfold charDecomp
  rw [h]

theorem alookup_mem {α β : Type} [DecidableEq α] (m : List (α × β)) (k : α) (v : β)
    (h : alookup m k = some v) : (k, v) ∈ m := by
  induction m with
  | nil => cases h
  | cons p t ih =>
    rw [alookup] at h
    by_cases hk : k = p.1
    · rw [if_pos hk] at h
      cases h
      subst hk
      exact List.mem_cons_self _ _
    · rw [if_neg hk] at h
      exact List.mem_cons_of_mem _ (ih h)

theorem charDecomp_no_decomp (v : Nat) : ∀ d ∈ charDecomp v, alookup decompTable d = none := by
  intro d hd
  unfold charDecomp at hd
  cases hv : alookup decompTable v with
  | none =>
    rw [hv] at hd
    rcases List.mem_singleton.mp hd with rfl
    exact hv
  | some l =>
    rw [hv] at hd
    exact decompTable_values_flat (v, l) (alookup_mem _ _ _ hv) d hd

theorem word_not_space {v : Nat} (h : isWordChar v = true) : isPySpace v = false := by
  simp only [isWordChar, Bool.or_eq_true, Bool.and_eq_true, decide_eq_true_eq,
    beq_iff_eq, Bool.not_eq_true', decide_eq_false_iff_not] at h
  simp only [isPySpace, Bool.or_eq_true, Bool.and_eq_true, decide_eq_true_eq, beq_iff_eq,
    Bool.or_eq_false_iff, Bool.and_eq_false_iff, beq_eq_false_iff_ne, ne_eq,
    decide_eq_false_iff_not]
  omega

theorem word_ne_45 {v : Nat} (h : isWordChar v = true) : v ≠ 45 := by
  simp only [isWordChar, Bool.or_eq_true, Bool.and_eq_true, decide_eq_true_eq,
    beq_iff_eq, Bool.not_eq_true', decide_eq_false_iff_not] at h
  omega

theorem word_ne_32 {v : Nat} (h : isWordChar v = true) : v ≠ 32 := by
  simp only [isWordChar, Bool.or_eq_true, Bool.and_eq_true, decide_eq_true_eq,
    beq_iff_eq, Bool.not_eq_true', decide_eq_false_iff_not] at h
  omega

theorem word_not_combining {v : Nat} (h : isWordChar v = true) : isCombining v = false := by
  simp only [isWordChar, Bool.or_eq_true, Bool.and_eq_true, decide_eq_true_eq,
    beq_iff_eq, Bool.not_eq_true', decide_eq_false_iff_not] at h
  simp only [isCombining, Bool.or_eq_true, Bool.and_eq_true, decide_eq_true_eq, beq_iff_eq,
    Bool.or_eq_false_iff, Bool.and_eq_false_iff, beq_eq_false_iff_ne, ne_eq,
    decide_eq_false_iff_not]
  omega

theorem pyLower_word {v : Nat} (h : isWordChar v = true) : isWordChar (pyLower v) = true := by
  unfold pyLower
  split_ifs with h1 h2 h3 <;>
    (simp only [isWordChar, Bool.or_eq_true, Bool.and_eq_true, decide_eq_true_eq,
       beq_iff_eq, Bool.not_eq_true', Bool.or_eq_false_iff, Bool.and_eq_false_iff,
       beq_eq_false_iff_ne, ne_eq, decide_eq_false_iff_not] at h ⊢; omega)

theorem pyLower_idem (v : Nat) : pyLower (pyLower v) = pyLower v := by
  unfold pyLower
  split_ifs <;> omega

theorem pyLower_32 : pyLower 32 = 32 := by decide

theorem pyLower_eq_32 {v : Nat} (h : pyLower v = 32) : v = 32 := by
  unfold pyLower at h
  split_ifs at h <;> omega

theorem pyLower_no_decomp {v : Nat} (hw : isWordChar v = true)
    (h : alookup decompTable v = none) : alookup decompTable (pyLower v) = none := by
  unfold pyLower
  split_ifs with h1 h2 h3
  · exact alookup_decomp_none_lt _ (by omega)
  · obtain ⟨hl, hr, hne⟩ := h2
    interval_cases v <;> revert h <;> decide
  · exact alookup_decomp_none_gt _ (by omega)
  · exact h

theorem goodChar_word {v : Nat} (h : goodChar v = true) : isWordChar v = true := by
  simp only [goodChar, Bool.and_eq_true] at h
  exact h.1.1

theorem goodChar_no_decomp {v : Nat} (h : goodChar v = true) :
    alookup decompTable v = none := by
  simp only [goodChar, Bool.and_eq_true, Option.isNone_iff_eq_none] at h
  exact h.1.2

theorem goodChar_lower_fixed {v : Nat} (h : goodChar v = true) : pyLower v = v := by
  simp only [goodChar, Bool.and_eq_true, beq_iff_eq] at h
  exact h.2

theorem goodChar_mk {v : Nat} (hw : isWordChar v = true)
    (hn : alookup decompTable v = none) (hl : pyLower v = v) : goodChar v = true := by
  simp only [goodChar, Bool.and_eq_true, Option.isNone_iff_eq_none, beq_iff_eq]
  exact ⟨⟨hw, hn⟩, hl⟩

/-! ### List-level lemmas about the normalize_name pipeline -/

theorem flatten_map_id {α : Type} (f : α → List α) (l : List α)
    (h : ∀ c ∈ l, f c = [c]) : (l.map f).flatten = l := by
  induction l with
  | nil => rfl
  | cons c t ih =>
    rw [List.map_cons, List.flatten_cons, h c (List.mem_cons_self c t),
      ih (fun d hd => h d (List.mem_cons_of_mem c hd))]
    rfl

theorem map_eq_self_of {α : Type} (f : α → α) (l : List α)
    (h : ∀ c ∈ l, f c = c) : l.map f = l := by
  induction l with
  | nil => rfl
  | cons c t ih =>
    rw [List.map_cons, h c (List.mem_cons_self c t),
      ih (fun d hd => h d (List.mem_cons_of_mem c hd))]

theorem nfkd_no_decomp (s : PyStr) : ∀ c ∈ nfkd s, alookup decompTable c = none := by
  intro c hc
  rcases List.mem_flatten.mp hc with ⟨l, hl, hcl⟩
  rcases List.mem_map.mp hl with ⟨d, _, rfl⟩
  exact charDecomp_no_decomp d c hcl

theorem collapseSep_cons_sep (c : Nat) (l : PyStr) (h : (c == 45 || isPySpace c) = true) :
    collapseSep (c :: l) =
      if (collapseSep l).head? = some 32 then collapseSep l else 32 :: collapseSep l := by
  rw [collapseSep, if_pos h]

theorem collapseSep_cons_word (c : Nat) (l : PyStr) (h : (c == 45 || isPySpace c) = false) :
    collapseSep (c :: l) = c :: collapseSep l := by
  rw [collapseSep, if_neg (by rw [h]; exact Bool.false_ne_true)]

theorem collapseSep_mem (l : PyStr) : ∀ c ∈ collapseSep l,
    c = 32 ∨ (c ∈ l ∧ isPySpace c = false ∧ c ≠ 45) := by
  induction l with
  | nil => intro c hc; cases hc
  | cons a t ih =>
    intro c hc
    by_cases ha : (a == 45 || isPySpace a) = true
    · rw [collapseSep_cons_sep a t ha] at hc
      by_cases hh : (collapseSep t).head? = some 32
      · rw [if_pos hh] at hc
        rcases ih c hc with h32 | ⟨hm, hs, hn⟩
        · exact Or.inl h32
        · exact Or.inr ⟨List.mem_cons_of_mem a hm, hs, hn⟩
      · rw [if_neg hh] at hc
        rcases List.mem_cons.mp hc with rfl | hc'
        · exact Or.inl rfl
        · rcases ih c hc' with h32 | ⟨hm, hs, hn⟩
          · exact Or.inl h32
          · exact Or.inr ⟨List.mem_cons_of_mem a hm, hs, hn⟩
    · have ha' : (a == 45 || isPySpace a) = false := Bool.eq_false_iff.mpr ha
      rcases Bool.or_eq_false_iff.mp ha' with ⟨hb, hs⟩
      rw [collapseSep_cons_word a t ha'] at hc
      rcases List.mem_cons.mp hc with rfl | hc'
      · exact Or.inr ⟨List.mem_cons_self _ _, hs, beq_eq_false_iff_ne.mp hb⟩
      · rcases ih c hc' with h32 | ⟨hm, hs2, hn⟩
        · exact Or.inl h32
        · exact Or.inr ⟨List.mem_cons_of_mem a hm, hs2, hn⟩

theorem collapseSep_chain (l : PyStr) : (collapseSep l).Chain' noDoubleSpace := by
  induction l with
  | nil => exact List.chain'_nil
  | cons a t ih =>
    by_cases ha : (a == 45 || isPySpace a) = true
    · rw [collapseSep_cons_sep a t ha]
      by_cases hh : (collapseSep t).head? = some 32
      · rw [if_pos hh]; exact ih
      · rw [if_neg hh]
        refine List.chain'_cons'.mpr ⟨?_, ih⟩
        intro y hy
        intro hcon
        exact hh (by rw [Option.mem_def.mp hy, hcon.2])
    · have ha' : (a == 45 || isPySpace a) = false := Bool.eq_false_iff.mpr ha
      rw [collapseSep_cons_word a t ha']
      refine List.chain'_cons'.mpr ⟨?_, ih⟩
      intro y _ hcon
      rcases Bool.or_eq_false_iff.mp ha' with ⟨_, hs⟩
      rw [hcon.1] at hs
      exact absurd hs (by decide)

theorem collapseSep_mem_of {c : Nat} (l : PyStr) (hc : c ∈ l)
    (hs : isPySpace c = false) (hn : c ≠ 45) : c ∈ collapseSep l := by
  induction l with
  | nil => cases hc
  | cons a t ih =>
    by_cases ha : (a == 45 || isPySpace a) = true
    · have hca : c ≠ a := by
        rintro rfl
        rw [Bool.or_eq_true] at ha
        rcases ha with hb | hsp
        · exact hn (beq_iff_eq.mp hb)
        · rw [hsp] at hs; cases hs
      have hct : c ∈ t := by
        rcases List.mem_cons.mp hc with rfl | h
        · exact absurd rfl hca
        · exact h
      rw [collapseSep_cons_sep a t ha]
      by_cases hh : (collapseSep t).head? = some 32
      · rw [if_pos hh]; exact ih hct
      · rw [if_neg hh]; exact List.mem_cons_of_mem _ (ih hct)
    · have ha' : (a == 45 || isPySpace a) = false := Bool.eq_false_iff.mpr ha
      rw [collapseSep_cons_word a t ha']
      rcases List.mem_cons.mp hc with rfl | h
      · exact List.mem_cons_self _ _
      · exact List.mem_cons_of_mem _ (ih h)

theorem collapseSep_eq_self (l : PyStr)
    (hmem : ∀ c ∈ l, goodChar c = true ∨ c = 32)
    (hch : l.Chain' noDoubleSpace) : collapseSep l = l := by
  induction l with
  | nil => rfl
  | cons a t ih =>
    have iht : collapseSep t = t := ih (fun c hc => hmem c (List.mem_cons_of_mem a hc)) hch.tail
    rcases hmem a (List.mem_cons_self a t) with hg | rfl
    · have ha' : (a == 45 || isPySpace a) = false :=
        Bool.or_eq_false_iff.mpr
          ⟨beq_eq_false_iff_ne.mpr (word_ne_45 (goodChar_word hg)),
           word_not_space (goodChar_word hg)⟩
      rw [collapseSep_cons_word a t ha', iht]
    · rw [collapseSep_cons_sep 32 t (by decide), iht]
      have hh : t.head? ≠ some 32 := by
        intro hcon
        have := (List.chain'_cons'.mp hch).1 32 (Option.mem_def.mpr hcon)
        exact this ⟨rfl, rfl⟩
      rw [if_neg hh]

theorem collapseSep_all_sep (l : PyStr)
    (h : ∀ c ∈ l, (c == 45 || isPySpace c) = true) :
    collapseSep l = [] ∨ collapseSep l = [32] := by
  induction l with
  | nil => exact Or.inl rfl
  | cons a t ih =>
    rw [collapseSep_cons_sep a t (h a (List.mem_cons_self a t))]
    rcases ih (fun c hc => h c (List.mem_cons_of_mem a hc)) with hnil | h32
    · rw [hnil]
      exact Or.inr (by decide)
    · rw [h32]
      exact Or.inr (by decide)

theorem collapseSep_append_sep (l : PyStr) :
    collapseSep (l ++ [32]) =
      if (collapseSep l).getLast? = some 32 then collapseSep l
      else collapseSep l ++ [32] := by
  induction l with
  | nil =>
    rw [List.nil_append, collapseSep_cons_sep 32 [] (by decide)]
    rfl
  | cons a t ih =>
    by_cases ha : (a == 45 || isPySpace a) = true
    · rw [List.cons_append, collapseSep_cons_sep a (t ++ [32]) ha, ih,
        collapseSep_cons_sep a t ha]
      generalize collapseSep t = v
      by_cases hg : v.getLast? = some 32
      · rw [if_pos hg]
        by_cases hh : v.head? = some 32
        · rw [if_pos hh, if_pos hg]
        · rw [if_neg hh]
          have h32 : ((32 :: v) : PyStr).getLast? = some 32 := by
            cases v with
            | nil => cases hg
            | cons b u => rw [List.getLast?_cons_cons]; exact hg
          rw [if_pos h32]
      · rw [if_neg hg]
        cases v with
        | nil => simp
        | cons b u =>
          by_cases hb : b = 32
          · subst hb
            rw [if_pos (show ((32 :: u ++ [32] : PyStr)).head? = some 32 from rfl)]
            rw [if_pos (show ((32 :: u : PyStr)).head? = some 32 from rfl)]
            rw [if_neg hg]
          · have hbne : ¬(((b :: u ++ [32]) : PyStr).head? = some 32) := by simp [hb]
            have hyne : ¬(((b :: u) : PyStr).head? = some 32) := by simp [hb]
            rw [if_neg hbne, if_neg hyne]
            have hgne : ¬(((32 :: b :: u) : PyStr).getLast? = some 32) := by
              rw [List.getLast?_cons_cons]; exact hg
            rw [if_neg hgne]
            simp
    · have ha' : (a == 45 || isPySpace a) = false := Bool.eq_false_iff.mpr ha
      have ha32 : a ≠ 32 := by
        rcases Bool.or_eq_false_iff.mp ha' with ⟨_, hs⟩
        intro hcon
        rw [hcon] at hs
        exact absurd hs (by decide)
      rw [List.cons_append, collapseSep_cons_word a (t ++ [32]) ha', ih,
        collapseSep_cons_word a t ha']
      generalize collapseSep t = v
      cases v with
      | nil =>
        rw [if_neg (by simp), if_neg (by simp [ha32])]
        rfl
      | cons b u =>
        by_cases hg : ((b :: u) : PyStr).getLast? = some 32
        · rw [if_pos hg, if_pos (by rw [List.getLast?_cons_cons]; exact hg)]
        · rw [if_neg hg, if_neg (by rw [List.getLast?_cons_cons]; exact hg)]
          simp

theorem head?_dropWhile_not {α : Type} (p : α → Bool) (l : List α) {h : α}
    (hh : (l.dropWhile p).head? = some h) : p h = false := by
  induction l with
  | nil => cases hh
  | cons c t ih =>
    by_cases hp : p c = true
    · rw [List.dropWhile_cons_of_pos hp] at hh
      exact ih hh
    · rw [List.dropWhile_cons_of_neg hp] at hh
      cases hh
      exact Bool.eq_false_iff.mpr hp

theorem mem_dropWhile_of {α : Type} (p : α → Bool) {c : α} (l : List α)
    (hc : c ∈ l) (hp : p c = false) : c ∈ l.dropWhile p := by
  induction l with
  | nil => cases hc
  | cons a t ih =>
    by_cases hpa : p a = true
    · rw [List.dropWhile_cons_of_pos hpa]
      rcases List.mem_cons.mp hc with rfl | h
      · rw [hpa] at hp; cases hp
      · exact ih h
    · rw [List.dropWhile_cons_of_neg hpa]
      exact hc

theorem mem_pyStripOn_of {p : Nat → Bool} {c : Nat} {l : PyStr}
    (hc : c ∈ l) (hp : p c = false) : c ∈ pyStripOn p l := by
  unfold pyStripOn
  rw [List.mem_reverse]
  exact mem_dropWhile_of p _ (List.mem_reverse.mpr (mem_dropWhile_of p l hc hp)) hp

theorem pyStripOn_prefix_core (p : Nat → Bool) (l : PyStr) :
    pyStripOn p l <+: l.dropWhile p := by
  unfold pyStripOn
  have h2 : (l.dropWhile p).reverse.dropWhile p <:+ (l.dropWhile p).reverse :=
    List.dropWhile_suffix p
  exact List.reverse_suffix.mp (by rw [List.reverse_reverse]; exact h2)

theorem pyStripOn_infixOf (p : Nat → Bool) (l : PyStr) : pyStripOn p l <:+: l :=
  ((pyStripOn_prefix_core p l).isInfix).trans (List.dropWhile_suffix p).isInfix

theorem pyStripOn_head_not (p : Nat → Bool) (l : PyStr) {h : Nat}
    (hh : (pyStripOn p l).head? = some h) : p h = false := by
  obtain ⟨t, ht⟩ := pyStripOn_prefix_core p l
  refine head?_dropWhile_not p l (h := h) ?_
  rw [← ht, List.head?_append, hh]
  rfl

theorem pyStripOn_getLast_not (p : Nat → Bool) (l : PyStr) {h : Nat}
    (hh : (pyStripOn p l).getLast? = some h) : p h = false := by
  unfold pyStripOn at hh
  rw [List.getLast?_reverse] at hh
  exact head?_dropWhile_not p _ hh

theorem dropWhile_eq_self_of_head {α : Type} (p : α → Bool) (l : List α)
    (h : ∀ c, l.head? = some c → p c = false) : l.dropWhile p = l := by
  cases l with
  | nil => rfl
  | cons a t =>
    refine List.dropWhile_cons_of_neg ?_
    rw [h a rfl]
    exact Bool.false_ne_true

theorem pyStripOn_eq_self (p : Nat → Bool) (l : PyStr)
    (h1 : ∀ c, l.head? = some c → p c = false)
    (h2 : ∀ c, l.getLast? = some c → p c = false) : pyStripOn p l = l := by
  unfold pyStripOn
  rw [dropWhile_eq_self_of_head p l h1]
  rw [dropWhile_eq_self_of_head p l.reverse (fun c hc => h2 c (by rwa [List.head?_reverse] at hc))]
  exact List.reverse_reverse l

theorem pyStrip_cons_space (c : Nat) (l : PyStr) (hc : isPySpace c = true) :
    pyStrip (c :: l) = pyStrip l := by
  unfold pyStrip pyStripOn
  rw [List.dropWhile_cons_of_pos hc]

theorem pyStrip_append_space (c : Nat) (l : PyStr) (hc : isPySpace c = true) :
    pyStrip (l ++ [c]) = pyStrip l := by
  unfold pyStrip pyStripOn
  rw [List.dropWhile_append]
  by_cases he : (l.dropWhile isPySpace).isEmpty = true
  · rw [if_pos he]
    rw [List.isEmpty_iff.mp he]
    rw [List.dropWhile_cons_of_pos hc]
    rfl
  · rw [if_neg he]
    rw [List.reverse_append]
    rw [show (([c] : PyStr)).reverse = [c] from rfl]
    rw [List.singleton_append, List.dropWhile_cons_of_pos hc]

theorem normalize_eq_body (s : PyStr) :
    normalize_name s =
      pyStrip ((collapseSep
        (((nfkd s).filter (fun v => !isCombining v)).filter keepChar)).map pyLower) := by
  by_cases hs : s = []
  · subst hs; rfl
  · rw [normalize_name, if_neg hs]

theorem body_canonical (L2 : PyStr)
    (hnd : ∀ c ∈ L2, alookup decompTable c = none)
    (hkeep : ∀ c ∈ L2, keepChar c = true) :
    Canonical (pyStrip ((collapseSep L2).map pyLower)) := by
  refine ⟨?_, ?_, ?_, ?_⟩
  · intro c hc
    have hc4 : c ∈ (collapseSep L2).map pyLower := (pyStripOn_infixOf _ _).subset hc
    obtain ⟨d, hd3, rfl⟩ := List.mem_map.mp hc4
    rcases collapseSep_mem L2 d hd3 with rfl | ⟨hdm, hds, hdn⟩
    · exact Or.inr pyLower_32
    · left
      have hw : isWordChar d = true := by
        have hk := hkeep d hdm
        rw [keepChar, hds, beq_eq_false_iff_ne.mpr hdn] at hk
        simpa using hk
      exact goodChar_mk (pyLower_word hw) (pyLower_no_decomp hw (hnd d hdm)) (pyLower_idem d)
  · refine List.Chain'.infix ?_ (pyStripOn_infixOf _ _)
    rw [List.chain'_map]
    refine List.Chain'.imp ?_ (collapseSep_chain L2)
    intro a b hab hcon
    exact hab ⟨pyLower_eq_32 hcon.1, pyLower_eq_32 hcon.2⟩
  · intro hcon
    have := pyStripOn_head_not isPySpace _ hcon
    exact absurd this (by decide)
  · intro hcon
    have := pyStripOn_getLast_not isPySpace _ hcon
    exact absurd this (by decide)

theorem normalize_canonical (s : PyStr) : Canonical (normalize_name s) := by
  rw [normalize_eq_body]
  refine body_canonical _ ?_ ?_
  · intro c hc
    exact nfkd_no_decomp s c (List.mem_filter.mp (List.mem_filter.mp hc).1).1
  · intro c hc
    exact (List.mem_filter.mp hc).2

theorem canonical_fixed (l : PyStr) (h : Canonical l) : normalize_name l = l := by
  obtain ⟨hmem, hch, hhd, hlast⟩ := h
  rw [normalize_eq_body]
  have hnf : nfkd l = l := by
    refine flatten_map_id charDecomp l ?_
    intro c hc
    rcases hmem c hc with hg | rfl
    · exact charDecomp_of_none c (goodChar_no_decomp hg)
    · exact charDecomp_of_none 32 (alookup_decomp_none_lt 32 (by norm_num))
  have hf1 : l.filter (fun v => !isCombining v) = l := by
    refine List.filter_eq_self.mpr ?_
    intro c hc
    rcases hmem c hc with hg | rfl
    · rw [word_not_combining (goodChar_word hg)]; rfl
    · decide
  have hf2 : l.filter keepChar = l := by
    refine List.filter_eq_self.mpr ?_
    intro c hc
    rcases hmem c hc with hg | rfl
    · rw [keepChar, goodChar_word hg]; rfl
    · decide
  have hcl : collapseSep l = l := collapseSep_eq_self l hmem hch
  have hmap : l.map pyLower = l := by
    refine map_eq_self_of pyLower l ?_
    intro c hc
    rcases hmem c hc with hg | rfl
    · exact goodChar_lower_fixed hg
    · exact pyLower_32
  rw [hnf, hf1, hf2, hcl, hmap]
  refine pyStripOn_eq_self isPySpace l ?_ ?_
  · intro c hc
    rcases hmem c (List.mem_of_mem_head? (Option.mem_def.mpr hc)) with hg | rfl
    · exact word_not_space (goodChar_word hg)
    · exact absurd hc hhd
  · intro c hc
    rcases hmem c (List.mem_of_mem_getLast? (Option.mem_def.mpr hc)) with hg | rfl
    · exact word_not_space (goodChar_word hg)
    · exact absurd hc hlast

theorem nfkd_cons_32 (s : PyStr) : nfkd (32 :: s) = 32 :: nfkd s := by
  unfold nfkd
  rw [List.map_cons, List.flatten_cons,
    charDecomp_of_none 32 (alookup_decomp_none_lt 32 (by norm_num))]
  rfl

theorem nfkd_append_32 (s : PyStr) : nfkd (s ++ [32]) = nfkd s ++ [32] := by
  unfold nfkd
  rw [List.map_append, List.flatten_append]
  rw [show (([32] : PyStr).map charDecomp).flatten = [32] by
    rw [List.map_cons, List.map_nil, List.flatten_cons,
      charDecomp_of_none 32 (alookup_decomp_none_lt 32 (by norm_num))]
    rfl]

theorem normalize_cons_space (s : PyStr) : normalize_name (32 :: s) = normalize_name s := by
  rw [normalize_eq_body (32 :: s), normalize_eq_body s]
  rw [nfkd_cons_32, List.filter_cons, if_pos (by decide), List.filter_cons, if_pos (by decide)]
  rw [collapseSep_cons_sep 32 _ (by decide)]
  by_cases hh : (collapseSep (((nfkd s).filter (fun v => !isCombining v)).filter keepChar)).head? =
      some 32
  · rw [if_pos hh]
  · rw [if_neg hh, List.map_cons, pyLower_32, pyStrip_cons_space 32 _ (by decide)]

theorem normalize_append_space (s : PyStr) : normalize_name (s ++ [32]) = normalize_name s := by
  rw [normalize_eq_body (s ++ [32]), normalize_eq_body s]
  rw [nfkd_append_32, List.filter_append, List.filter_append]
  rw [show (([32] : PyStr).filter (fun v => !isCombining v)).filter keepChar = [32] by decide]
  rw [collapseSep_append_sep]
  by_cases hg : (collapseSep (((nfkd s).filter (fun v => !isCombining v)).filter keepChar)).getLast? =
      some 32
  · rw [if_pos hg]
  · rw [if_neg hg, List.map_append, List.map_cons, List.map_nil, pyLower_32,
      pyStrip_append_space 32 _ (by decide)]

/-- C6: normalize_name is idempotent, insensitive to leading and trailing
whitespace, and identifies case, diacritic and hyphen-vs-space variants,
as on the spec's examples. -/
theorem claim_C6_normalize_idempotent :
    (∀ s : PyStr, normalize_name (normalize_name s) = normalize_name s) ∧
    (∀ s : PyStr, normalize_name (32 :: s) = normalize_name s ∧
      normalize_name (s ++ [32]) = normalize_name s) ∧
    normalize_name (ofString ("José García")) = normalize_name (ofString ("jose garcia")) ∧
    normalize_name (ofString ("JOSE-GARCIA")) = normalize_name (ofString ("jose garcia")) ∧
    normalize_name (ofString ("jose garcia")) = ofString ("jose garcia") := by
  refine ⟨?_, ?_, by decide, by decide, by decide⟩
  · intro s
    exact canonical_fixed _ (normalize_canonical s)
  · intro s
    exact ⟨normalize_cons_space s, normalize_append_space s⟩

/-- C7, counterexample: underscore is a `\w` character, so it survives
normalize_name unchanged, yet it is not a letter, digit, whitespace or
hyphen - the claimed output character set is wrong on the code. -/
theorem claim_C7_counterexample :
    normalize_name (ofString ("_")) = ofString ("_") ∧
    (normalize_name (ofString ("_"))).all claimC7Char = false := by decide

/-- C7, amended: normalize_name is total; its output consists only of word
characters (letters, digits, underscore) and single interior spaces -
hyphens and whitespace runs having been replaced by spaces and the result
lowercased and trimmed - and it returns the empty string exactly when the
input contains no word character. -/
theorem claim_C7_amended_output_chars (s : PyStr) :
    (∀ c ∈ normalize_name s, isWordChar c = true ∨ c = 32) ∧
    (normalize_name s = [] ↔ ∀ c ∈ s, isWordChar c = false) := by
  constructor
  · intro c hc
    rcases (normalize_canonical s).1 c hc with hg | rfl
    · exact Or.inl (goodChar_word hg)
    · exact Or.inr rfl
  · constructor
    · intro hempty c hc
      by_contra hw'
      have hw : isWordChar c = true := by
        cases hcw : isWordChar c with
        | false => exact absurd hcw hw'
        | true => rfl
      obtain ⟨e, he, hew, hec⟩ : ∃ e ∈ charDecomp c, isWordChar e = true ∧
          isCombining e = false := by
        cases hlk : alookup decompTable c with
        | none =>
          refine ⟨c, ?_, hw, word_not_combining hw⟩
          rw [charDecomp, hlk]
          exact List.mem_singleton.mpr rfl
        | some l =>
          obtain ⟨d, hd, hdw, hdc⟩ := decompTable_values_word (c, l) (alookup_mem _ _ _ hlk)
          refine ⟨d, ?_, hdw, hdc⟩
          rw [charDecomp, hlk]
          exact hd
      have h1 : e ∈ nfkd s :=
        List.mem_flatten.mpr ⟨charDecomp c, List.mem_map.mpr ⟨c, hc, rfl⟩, he⟩
      have h2 : e ∈ (nfkd s).filter (fun v => !isCombining v) :=
        List.mem_filter.mpr ⟨h1, by simp [hec]⟩
      have h3 : e ∈ ((nfkd s).filter (fun v => !isCombining v)).filter keepChar :=
        List.mem_filter.mpr ⟨h2, by rw [keepChar, hew]; rfl⟩
      have h4 : e ∈ collapseSep (((nfkd s).filter (fun v => !isCombining v)).filter keepChar) :=
        collapseSep_mem_of _ h3 (word_not_space hew) (word_ne_45 hew)
      have h6 : pyLower e ∈ normalize_name s := by
        rw [normalize_eq_body]
        exact mem_pyStripOn_of (List.mem_map.mpr ⟨e, h4, rfl⟩)
          (word_not_space (pyLower_word hew))
      rw [hempty] at h6
      cases h6
    · intro hno
      rw [normalize_eq_body]
      have hnfkd : nfkd s = s := by
        refine flatten_map_id charDecomp s ?_
        intro c hc
        exact charDecomp_of_none c (alookup_decomp_none_notword c (hno c hc))
      rw [hnfkd]
      have hsep : ∀ c ∈ (s.filter (fun v => !isCombining v)).filter keepChar,
          (c == 45 || isPySpace c) = true := by
        intro c hc
        obtain ⟨hc1, hk⟩ := List.mem_filter.mp hc
        obtain ⟨hc0, _⟩ := List.mem_filter.mp hc1
        rw [keepChar, hno c hc0] at hk
        rw [Bool.or_comm]
        simpa using hk
      rcases collapseSep_all_sep _ hsep with h | h <;> rw [h] <;> decide

theorem claim_C7_amended_output_chars_witness :
    (isWordChar 97 = true ∨ (97 : Nat) = 32) ∧
    (normalize_name (ofString ("!?")) = [] ↔ ∀ c ∈ ofString ("!?"), isWordChar c = false) :=
  ⟨(claim_C7_amended_output_chars (ofString ("a"))).1 97 (by decide),
   (claim_C7_amended_output_chars (ofString ("!?"))).2⟩

/-! ### The Identity Grouper's invariants (claim C4) -/

theorem rowGroup_spec (st : AggState) (r : Row) :
    rowGroup st r = none ∨
    (∃ g, rowGroup st r = some (st, g) ∧
      alookup st.nameMap (pyStrip r.author_name) = some g) ∨
    (∃ g, rowGroup st r =
        some ({ st with nameMap := (pyStrip r.author_name, g) :: st.nameMap }, g) ∧
      alookup st.nameMap (pyStrip r.author_name) = none ∧
      alookup st.normMap (normalize_name (pyStrip r.author_name)) = some g) ∨
    (rowGroup st r = some ({ st with
        nameMap := (pyStrip r.author_name, st.counter) :: st.nameMap,
        normMap := (normalize_name (pyStrip r.author_name), st.counter) :: st.normMap,
        names := (st.counter, normalize_name (pyStrip r.author_name)) :: st.names,
        counter := st.counter + 1 }, st.counter) ∧
      pyStrip r.author_name ≠ [] ∧
      alookup st.nameMap (pyStrip r.author_name) = none ∧
      alookup st.normMap (normalize_name (pyStrip r.author_name)) = none) := by
  unfold rowGroup
  by_cases h1 : pyStrip r.author_name = []
  · rw [if_pos h1]
    exact Or.inl rfl
  · rw [if_neg h1]
    by_cases h2 : pyStrip r.id = []
    · rw [if_pos h2]
      exact Or.inl rfl
    · rw [if_neg h2]
      cases hn : alookup st.nameMap (pyStrip r.author_name) with
      | some g => exact Or.inr (Or.inl ⟨g, rfl, rfl⟩)
      | none =>
        cases hm : alookup st.normMap (normalize_name (pyStrip r.author_name)) with
        | some g => exact Or.inr (Or.inr (Or.inl ⟨g, rfl, rfl, rfl⟩))
        | none => exact Or.inr (Or.inr (Or.inr ⟨rfl, h1, rfl, rfl⟩))

theorem stepRow_of_none {st : AggState} {r : Row} (h : rowGroup st r = none) :
    stepRow st r = st := by
  unfold stepRow
  rw [h]

theorem stepRow_of_some {st st1 : AggState} {r : Row} {g : Nat}
    (h : rowGroup st r = some (st1, g)) :
    stepRow st r = { st1 with data := fun g' =>
      if g' = g then updateGroupData r (pyStrip r.id) (st1.data g) else st1.data g' } := by
  unfold stepRow
  rw [h]

theorem grouperInv_init : GrouperInv {} := by
  refine ⟨?_, ?_, ?_, ?_, ?_⟩
  · intro k g h; simp [alookup] at h
  · intro g hg; simp at hg
  · intro k k' g h h'; simp [alookup] at h
  · intro g n h; simp [alookup] at h
  · intro k g h; simp [alookup] at h

theorem stepRow_grouperInv (st : AggState) (r : Row) (h : GrouperInv st) :
    GrouperInv (stepRow st r) := by
  rcases rowGroup_spec st r with hnone | ⟨g, heq, hn⟩ | ⟨g, heq, hn, hm⟩ | ⟨heq, hne, hn, hm⟩
  · rw [stepRow_of_none hnone]; exact h
  · rw [stepRow_of_some heq]; exact h
  · rw [stepRow_of_some heq]
    obtain ⟨i1, i2, i3, i4, i5⟩ := h
    refine ⟨i1, i2, i3, i4, ?_⟩
    intro k gg hk
    rw [alookup] at hk
    by_cases hkk : k = pyStrip r.author_name
    · rw [if_pos hkk] at hk
      cases hk
      exact i1 _ _ hm
    · rw [if_neg hkk] at hk
      exact i5 _ _ hk
  · rw [stepRow_of_some heq]
    obtain ⟨i1, i2, i3, i4, i5⟩ := h
    dsimp only
    refine ⟨?_, ?_, ?_, ?_, ?_⟩
    · intro k g hk
      rw [alookup] at hk
      by_cases hkk : k = normalize_name (pyStrip r.author_name)
      · rw [if_pos hkk] at hk
        cases hk
        exact Nat.lt_succ_self st.counter
      · rw [if_neg hkk] at hk
        exact Nat.lt_succ_of_lt (i1 _ _ hk)
    · intro g hg
      by_cases hgc : g = st.counter
      · subst hgc
        exact ⟨normalize_name (pyStrip r.author_name), by rw [alookup, if_pos rfl]⟩
      · have hg' : g < st.counter := by
          have : g < st.counter + 1 := hg
          omega
        obtain ⟨k, hk⟩ := i2 g hg'
        refine ⟨k, ?_⟩
        rw [alookup]
        by_cases hkk : k = normalize_name (pyStrip r.author_name)
        · rw [hkk, hm] at hk
          cases hk
        · rw [if_neg hkk]
          exact hk
    · intro k k' g hk hk'
      rw [alookup] at hk hk'
      by_cases h1 : k = normalize_name (pyStrip r.author_name) <;>
        by_cases h2 : k' = normalize_name (pyStrip r.author_name)
      · rw [h1, h2]
      · rw [if_pos h1] at hk
        rw [if_neg h2] at hk'
        cases hk
        exact absurd (i1 _ _ hk') (lt_irrefl _)
      · rw [if_neg h1] at hk
        rw [if_pos h2] at hk'
        cases hk'
        exact absurd (i1 _ _ hk) (lt_irrefl _)
      · rw [if_neg h1] at hk
        rw [if_neg h2] at hk'
        exact i3 _ _ _ hk hk'
    · intro g n hg
      rw [alookup] at hg
      by_cases hgg : g = st.counter
      · subst hgg
        exact Nat.lt_succ_self st.counter
      · rw [if_neg hgg] at hg
        exact Nat.lt_succ_of_lt (i4 _ _ hg)
    · intro k g hk
      rw [alookup] at hk
      by_cases hkk : k = pyStrip r.author_name
      · rw [if_pos hkk] at hk
        cases hk
        exact Nat.lt_succ_self st.counter
      · rw [if_neg hkk] at hk
        exact Nat.lt_succ_of_lt (i5 _ _ hk)

theorem foldState_grouperInv (rows : List Row) : GrouperInv (foldState rows) :=
  foldl_inv (fun s x hs => stepRow_grouperInv s x hs) rows {} grouperInv_init

theorem stepRow_normMap_mono {st : AggState} {r : Row} {k : PyStr} {g : Nat}
    (h : alookup st.normMap k = some g) : alookup (stepRow st r).normMap k = some g := by
  rcases rowGroup_spec st r with hnone | ⟨g0, heq, _⟩ | ⟨g0, heq, _, _⟩ | ⟨heq, _, _, hm⟩
  · rw [stepRow_of_none hnone]; exact h
  · rw [stepRow_of_some heq]; exact h
  · rw [stepRow_of_some heq]; exact h
  · rw [stepRow_of_some heq]
    show alookup ((normalize_name (pyStrip r.author_name), st.counter) :: st.normMap) k = some g
    rw [alookup]
    by_cases hkk : k = normalize_name (pyStrip r.author_name)
    · rw [hkk, hm] at h
      cases h
    · rw [if_neg hkk]
      exact h

theorem stepRow_names_mono {st : AggState} {r : Row} {g : Nat} {n : PyStr}
    (hInv : GrouperInv st) (h : alookup st.names g = some n) :
    alookup (stepRow st r).names g = some n := by
  rcases rowGroup_spec st r with hnone | ⟨g0, heq, _⟩ | ⟨g0, heq, _, _⟩ | ⟨heq, _, _, hm⟩
  · rw [stepRow_of_none hnone]; exact h
  · rw [stepRow_of_some heq]; exact h
  · rw [stepRow_of_some heq]; exact h
  · rw [stepRow_of_some heq]
    show alookup ((st.counter, normalize_name (pyStrip r.author_name)) :: st.names) g = some n
    rw [alookup]
    by_cases hgg : g = st.counter
    · subst hgg
      exact absurd (hInv.2.2.2.1 _ _ h) (lt_irrefl _)
    · rw [if_neg hgg]
      exact h

theorem foldl_normMap_mono (l : List Row) (st : AggState) {k : PyStr} {g : Nat}
    (h : alookup st.normMap k = some g) :
    alookup (List.foldl stepRow st l).normMap k = some g := by
  induction l generalizing st with
  | nil => exact h
  | cons r t ih => exact ih (stepRow st r) (stepRow_normMap_mono h)

theorem foldl_names_mono (l : List Row) (st : AggState) {g : Nat} {n : PyStr}
    (hInv : GrouperInv st) (h : alookup st.names g = some n) :
    alookup (List.foldl stepRow st l).names g = some n := by
  induction l generalizing st with
  | nil => exact h
  | cons r t ih =>
    exact ih (stepRow st r) (stepRow_grouperInv st r hInv) (stepRow_names_mono hInv h)

/-- C4: within one run, a canonical key once mapped to a group id keeps
that id; ids are allocated by a monotonic counter starting at 0 (ids are
exactly 0..counter-1, never reused for another key); display names, once
recorded for a group, persist; and each group's output row carries its
first recorded normalized name, title-cased. -/
theorem claim_C4_grouper_invariants (rows : List Row) :
    ((foldState ([] : List Row)).counter = 0) ∧
    (∀ l1 l2 k g, rows = l1 ++ l2 → alookup (foldState l1).normMap k = some g →
      alookup (foldState rows).normMap k = some g) ∧
    (∀ k g, alookup (foldState rows).normMap k = some g → g < (foldState rows).counter) ∧
    (∀ g, g < (foldState rows).counter →
      ∃ k, alookup (foldState rows).normMap k = some g) ∧
    (∀ k k' g, alookup (foldState rows).normMap k = some g →
      alookup (foldState rows).normMap k' = some g → k = k') ∧
    (∀ l1 l2 g n, rows = l1 ++ l2 → alookup (foldState l1).names g = some n →
      alookup (foldState rows).names g = some n) ∧
    (∀ g, g < (foldState rows).counter →
      (outputRowsPre (foldState rows))[g]? = some (outputRowOf (foldState rows) g) ∧
      (outputRowOf (foldState rows) g).author_name =
        titleCaseWords ((alookup (foldState rows).names g).getD [])) := by
  have hInv := foldState_grouperInv rows
  refine ⟨rfl, ?_, hInv.1, hInv.2.1, hInv.2.2.1, ?_, ?_⟩
  · intro l1 l2 k g hsplit h
    subst hsplit
    unfold foldState
    rw [List.foldl_append]
    exact foldl_normMap_mono l2 _ h
  · intro l1 l2 g n hsplit h
    subst hsplit
    unfold foldState
    rw [List.foldl_append]
    exact foldl_names_mono l2 _ (foldState_grouperInv l1) h
  · intro g hg
    constructor
    · unfold outputRowsPre
      rw [List.getElem?_map, List.getElem?_range hg]
      rfl
    · rfl

theorem claim_C4_grouper_invariants_witness :
    alookup (foldState [rowAnn, rowBob]).normMap (ofString ("ann")) = some 0 :=
  (claim_C4_grouper_invariants [rowAnn, rowBob]).2.1 [rowAnn] [rowBob]
    (ofString ("ann")) 0 rfl (by decide)

/-! ### Ordered-insert set representation lemmas -/

theorem chain'_rel_head {α : Type} {R : α → α → Prop}
    (htrans : ∀ a b c, R a b → R b c → R a c) {y : α} {t : List α}
    (h : List.Chain' R (y :: t)) : ∀ z ∈ t, R y z := by
  induction t generalizing y with
  | nil => intro z hz; cases hz
  | cons w u ih =>
    intro z hz
    have h1 : R y w := (List.chain'_cons.mp h).1
    rcases List.mem_cons.mp hz with rfl | hz'
    · exact h1
    · exact htrans y w z h1 (ih (List.chain'_cons.mp h).2 z hz')

theorem insertOrd_mem_self {α : Type} [DecidableEq α] (lt : α → α → Bool) (x : α)
    (s : List α) : x ∈ insertOrd lt x s := by
  induction s with
  | nil => exact List.mem_singleton.mpr rfl
  | cons y t ih =>
    rw [insertOrd]
    split_ifs with h1 h2
    · exact List.mem_cons_self _ _
    · rw [h2]; exact List.mem_cons_self _ _
    · exact List.mem_cons_of_mem _ ih

theorem insertOrd_mem_of {α : Type} [DecidableEq α] (lt : α → α → Bool) {y : α} (x : α)
    (s : List α) (h : y ∈ s) : y ∈ insertOrd lt x s := by
  induction s with
  | nil => cases h
  | cons z t ih =>
    rw [insertOrd]
    split_ifs with h1 h2
    · exact List.mem_cons_of_mem _ h
    · exact h
    · rcases List.mem_cons.mp h with rfl | h'
      · exact List.mem_cons_self _ _
      · exact List.mem_cons_of_mem _ (ih h')

theorem insertOrd_eq_of_mem {α : Type} [DecidableEq α] (lt : α → α → Bool)
    (htrans : ∀ a b c, lt a b = true → lt b c = true → lt a c = true)
    (hirr : ∀ a, lt a a = false) {x : α} {s : List α}
    (hs : s.Chain' (fun a b => lt a b = true)) (hx : x ∈ s) : insertOrd lt x s = s := by
  induction s with
  | nil => cases hx
  | cons y t ih =>
    rw [insertOrd]
    split_ifs with h1 h2
    · exfalso
      rcases List.mem_cons.mp hx with rfl | hx'
      · rw [hirr x] at h1; cases h1
      · have h2 := chain'_rel_head (fun a b c => htrans a b c) hs x hx'
        have := htrans x y x h1 h2
        rw [hirr x] at this
        cases this
    · rfl
    · have hx' : x ∈ t := by
        rcases List.mem_cons.mp hx with rfl | hx'
        · exact absurd rfl h2
        · exact hx'
      rw [ih hs.tail hx']

theorem insertOrd_head {α : Type} [DecidableEq α] (lt : α → α → Bool) (x : α)
    (t : List α) :
    (insertOrd lt x t).head? = some x ∨ (insertOrd lt x t).head? = t.head? := by
  cases t with
  | nil => exact Or.inl rfl
  | cons z u =>
    rw [insertOrd]
    split_ifs with h1 h2
    · exact Or.inl rfl
    · exact Or.inr rfl
    · exact Or.inr rfl

theorem insertOrd_chain {α : Type} [DecidableEq α] (lt : α → α → Bool)
    (htot : ∀ a b, a ≠ b → lt a b = true ∨ lt b a = true) {x : α} {s : List α}
    (hs : s.Chain' (fun a b => lt a b = true)) :
    (insertOrd lt x s).Chain' (fun a b => lt a b = true) := by
  induction s with
  | nil => exact List.chain'_singleton x
  | cons y t ih =>
    rw [insertOrd]
    split_ifs with h1 h2
    · exact List.chain'_cons.mpr ⟨h1, hs⟩
    · exact hs
    · have hyx : lt y x = true := by
        rcases htot x y (fun hxy => h2 hxy) with h | h
        · exact absurd h h1
        · exact h
      refine List.chain'_cons'.mpr ⟨?_, ih hs.tail⟩
      intro h hh
      rcases insertOrd_head lt x t with he | he
      · rw [he] at hh
        cases hh
        exact hyx
      · rw [he] at hh
        cases t with
        | nil => cases hh
        | cons z u =>
          cases hh
          exact (List.chain'_cons.mp hs).1

theorem strLt_irrefl (s : PyStr) : strLt s s = false := by
  induction s with
  | nil => rfl
  | cons a t ih =>
    rw [strLt]
    rw [if_neg (lt_irrefl a), if_neg (lt_irrefl a)]
    exact ih

theorem strLt_trans (a : PyStr) : ∀ b c : PyStr,
    strLt a b = true → strLt b c = true → strLt a c = true := by
  induction a with
  | nil =>
    intro b c hab hbc
    cases b with
    | nil => cases hab
    | cons y t =>
      cases c with
      | nil => cases hbc
      | cons z u => rfl
  | cons x s ih =>
    intro b c hab hbc
    cases b with
    | nil => cases hab
    | cons y t =>
      cases c with
      | nil => cases hbc
      | cons z u =>
        rw [strLt] at hab hbc ⊢
        by_cases hxy : x < y
        · by_cases hyz : y < z
          · rw [if_pos (lt_trans hxy hyz)]
          · rw [if_neg hyz] at hbc
            by_cases hzy : z < y
            · rw [if_pos hzy] at hbc; cases hbc
            · have : y = z := le_antisymm (not_lt.mp hzy) (not_lt.mp hyz)
              subst this
              rw [if_pos hxy]
        · rw [if_neg hxy] at hab
          by_cases hyx : y < x
          · rw [if_pos hyx] at hab; cases hab
          · have hxy' : x = y := le_antisymm (not_lt.mp hyx) (not_lt.mp hxy)
            subst hxy'
            by_cases hxz : x < z
            · rw [if_pos hxz]
            · rw [if_neg hxz] at hbc ⊢
              by_cases hzx : z < x
              · rw [if_pos hzx] at hbc; cases hbc
              · rw [if_neg hzx] at hbc ⊢
                rw [if_neg hxy] at hab
                exact ih t u hab hbc

theorem strLt_total (a : PyStr) : ∀ b : PyStr, a ≠ b →
    strLt a b = true ∨ strLt b a = true := by
  induction a with
  | nil =>
    intro b hb
    cases b with
    | nil => exact absurd rfl hb
    | cons y t => exact Or.inl rfl
  | cons x s ih =>
    intro b hb
    cases b with
    | nil => exact Or.inr rfl
    | cons y t =>
      rw [strLt, strLt]
      by_cases hxy : x < y
      · rw [if_pos hxy]
        exact Or.inl rfl
      · by_cases hyx : y < x
        · rw [if_neg hxy, if_pos hyx, if_pos hyx]
          exact Or.inr rfl
        · have hxy' : x = y := le_antisymm (not_lt.mp hyx) (not_lt.mp hxy)
          subst hxy'
          simp only [if_neg hxy]
          have hst : s ≠ t := by
            intro hcon
            exact hb (by rw [hcon])
          exact ih t hst

/-! ### The citation bookkeeping (claim C3) -/

theorem updAuthorIds_cited (r : Row) (d : GroupData) :
    (updAuthorIds r d).cited_by_per_work = d.cited_by_per_work := by
  unfold updAuthorIds
  split_ifs <;> rfl

theorem updWorkIds_cited (work : PyStr) (d : GroupData) :
    (updWorkIds work d).cited_by_per_work = d.cited_by_per_work := rfl

theorem updSourceIds_cited (r : Row) (d : GroupData) :
    (updSourceIds r d).cited_by_per_work = d.cited_by_per_work := by
  unfold updSourceIds
  split_ifs <;> rfl

theorem updSpecific_cited (r : Row) (work : PyStr) (d : GroupData) :
    (updSpecific r work d).cited_by_per_work = d.cited_by_per_work := by
  unfold updSpecific
  split_ifs <;> rfl

theorem updYears_cited (r : Row) (d : GroupData) :
    (updYears r d).cited_by_per_work = d.cited_by_per_work := by
  unfold updYears
  cases rowYear r <;> rfl

theorem updInsts_cited (r : Row) (d : GroupData) :
    (updInsts r d).cited_by_per_work = d.cited_by_per_work := by
  unfold updInsts
  generalize splitSemiClean r.institutions = l
  induction l generalizing d with
  | nil => rfl
  | cons i t ih => exact ih _

theorem updCountries_cited (r : Row) (d : GroupData) :
    (updCountries r d).cited_by_per_work = d.cited_by_per_work := by
  unfold updCountries
  generalize splitSemiClean r.countries = l
  induction l generalizing d with
  | nil => rfl
  | cons i t ih => exact ih _

theorem updAffs_cited (r : Row) (d : GroupData) :
    (updAffs r d).cited_by_per_work = d.cited_by_per_work := by
  unfold updAffs
  generalize splitSemiClean r.affiliations_comment = l
  induction l generalizing d with
  | nil => rfl
  | cons i t ih => exact ih _

theorem updateGD_cited (r : Row) (work : PyStr) (d : GroupData) :
    (updateGroupData r work d).cited_by_per_work =
      match parsePyInt r.cited_by_count with
      | some v =>
        if alookup d.cited_by_per_work work = none then
          d.cited_by_per_work ++ [(work, v)]
        else d.cited_by_per_work
      | none => d.cited_by_per_work := by
  unfold updateGroupData
  rw [updAffs_cited, updCountries_cited, updInsts_cited, updYears_cited]
  have hpre : (updSpecific r work (updSourceIds r (updWorkIds work
      (updAuthorIds r d)))).cited_by_per_work = d.cited_by_per_work := by
    rw [updSpecific_cited, updSourceIds_cited, updWorkIds_cited, updAuthorIds_cited]
  unfold updCited
  cases parsePyInt r.cited_by_count with
  | none => exact hpre
  | some v =>
    rw [apply_ite (fun d : GroupData => d.cited_by_per_work), hpre]

theorem alookup_append_single {α β : Type} [DecidableEq α] (m : List (α × β))
    (a : α) (b : β) (k : α) :
    alookup (m ++ [(a, b)]) k =
      (alookup m k).or (if k = a then some b else none) := by
  induction m with
  | nil =>
    by_cases hk : k = a <;> simp [alookup, hk]
  | cons p t ih =>
    by_cases hk : k = p.1 <;> simp [alookup, hk, ih]

theorem assignAux_cons_none {st : AggState} {r : Row} (rest : List Row)
    (h : rowGroup st r = none) :
    assignAux st (r :: rest) = assignAux (stepRow st r) rest := by
  rw [assignAux, h]

theorem assignAux_cons_some {st st1 : AggState} {r : Row} {g : Nat} (rest : List Row)
    (h : rowGroup st r = some (st1, g)) :
    assignAux st (r :: rest) = (g, r) :: assignAux (stepRow st r) rest := by
  rw [assignAux, h]

theorem assignAux_append (l1 l2 : List Row) : ∀ st : AggState,
    assignAux st (l1 ++ l2) = assignAux st l1 ++ assignAux (List.foldl stepRow st l1) l2 := by
  induction l1 with
  | nil => intro st; rfl
  | cons r t ih =>
    intro st
    cases h : rowGroup st r with
    | none =>
      rw [List.cons_append, assignAux_cons_none (t ++ l2) h, assignAux_cons_none t h, ih]
      rfl
    | some p =>
      rw [List.cons_append, assignAux_cons_some (t ++ l2) (by rw [h]),
        assignAux_cons_some t (by rw [h]), ih]
      rfl

theorem assign_append_single (l : List Row) (r : Row) :
    assign (l ++ [r]) = assign l ++ assignAux (foldState l) [r] := by
  unfold assign foldState
  rw [assignAux_append]

theorem mem_firstDedupAcc {α : Type} [DecidableEq α] (a : α) :
    ∀ (l : List α) (seen : List α), a ∈ firstDedupAcc seen l ↔ a ∈ l ∧ a ∉ seen := by
  intro l
  induction l with
  | nil => intro seen; simp [firstDedupAcc]
  | cons x t ih =>
    intro seen
    rw [firstDedupAcc]
    by_cases hx : x ∈ seen
    · rw [if_pos hx, ih]
      constructor
      · rintro ⟨h1, h2⟩
        exact ⟨List.mem_cons_of_mem x h1, h2⟩
      · rintro ⟨h1, h2⟩
        rcases List.mem_cons.mp h1 with rfl | h1'
        · exact absurd hx h2
        · exact ⟨h1', h2⟩
    · rw [if_neg hx]
      constructor
      · intro h
        rcases List.mem_cons.mp h with rfl | h'
        · exact ⟨List.mem_cons_self _ _, hx⟩
        · obtain ⟨h1, h2⟩ := (ih (x :: seen)).mp h'
          exact ⟨List.mem_cons_of_mem x h1,
            fun hcon => h2 (List.mem_cons_of_mem x hcon)⟩
      · rintro ⟨h1, h2⟩
        rcases List.mem_cons.mp h1 with rfl | h1'
        · exact List.mem_cons_self _ _
        · by_cases hax : a = x
          · subst hax
            exact List.mem_cons_self _ _
          · refine List.mem_cons_of_mem x ((ih (x :: seen)).mpr ⟨h1', ?_⟩)
            intro hcon
            rcases List.mem_cons.mp hcon with h | h
            · exact hax h
            · exact h2 h

theorem mem_firstDedup {α : Type} [DecidableEq α] (a : α) (l : List α) :
    a ∈ firstDedup l ↔ a ∈ l := by
  unfold firstDedup
  rw [mem_firstDedupAcc]
  simp

theorem firstDedupAcc_nodup {α : Type} [DecidableEq α] :
    ∀ (l : List α) (seen : List α), (firstDedupAcc seen l).Nodup := by
  intro l
  induction l with
  | nil => intro seen; exact List.nodup_nil
  | cons x t ih =>
    intro seen
    rw [firstDedupAcc]
    by_cases hx : x ∈ seen
    · rw [if_pos hx]
      exact ih seen
    · rw [if_neg hx]
      refine List.nodup_cons.mpr ⟨?_, ih (x :: seen)⟩
      intro hcon
      exact ((mem_firstDedupAcc x t (x :: seen)).mp hcon).2 (List.mem_cons_self _ _)

theorem firstDedup_nodup {α : Type} [DecidableEq α] (l : List α) :
    (firstDedup l).Nodup := firstDedupAcc_nodup l []

theorem firstDedupAcc_append_single {α : Type} [DecidableEq α] (a : α) :
    ∀ (l : List α) (seen : List α),
      firstDedupAcc seen (l ++ [a]) =
        firstDedupAcc seen l ++ (if a ∈ seen ∨ a ∈ l then [] else [a]) := by
  intro l
  induction l with
  | nil =>
    intro seen
    rw [List.nil_append]
    by_cases ha : a ∈ seen
    · simp [firstDedupAcc, ha]
    · simp [firstDedupAcc, ha]
  | cons x t ih =>
    intro seen
    rw [List.cons_append, firstDedupAcc, firstDedupAcc]
    by_cases hx : x ∈ seen
    · rw [if_pos hx, if_pos hx, ih]
      by_cases hc1 : a ∈ seen ∨ a ∈ t
      · rw [if_pos hc1, if_pos ?_]
        rcases hc1 with h | h
        · exact Or.inl h
        · exact Or.inr (List.mem_cons_of_mem x h)
      · rw [if_neg hc1, if_neg ?_]
        rintro (h | h)
        · exact hc1 (Or.inl h)
        · rcases List.mem_cons.mp h with rfl | h'
          · exact hc1 (Or.inl hx)
          · exact hc1 (Or.inr h')
    · rw [if_neg hx, if_neg hx, ih, List.cons_append]
      by_cases hc1 : a ∈ x :: seen ∨ a ∈ t
      · rw [if_pos hc1, if_pos ?_]
        rcases hc1 with h | h
        · rcases List.mem_cons.mp h with rfl | h'
          · exact Or.inr (List.mem_cons_self _ _)
          · exact Or.inl h'
        · exact Or.inr (List.mem_cons_of_mem x h)
      · rw [if_neg hc1, if_neg ?_]
        rintro (h | h)
        · exact hc1 (Or.inl (List.mem_cons_of_mem x h))
        · rcases List.mem_cons.mp h with rfl | h'
          · exact hc1 (Or.inl (List.mem_cons_self _ _))
          · exact hc1 (Or.inr h')

theorem firstDedup_append_single {α : Type} [DecidableEq α] (a : α) (l : List α) :
    firstDedup (l ++ [a]) = firstDedup l ++ (if a ∈ l then [] else [a]) := by
  unfold firstDedup
  rw [firstDedupAcc_append_single]
  by_cases ha : a ∈ l
  · rw [if_pos ha, if_pos (by simp [ha])]
  · rw [if_neg ha, if_neg (by simp [ha])]

theorem firstCited_append_single (l : List (Nat × Row)) (p : Nat × Row) (g : Nat)
    (w : PyStr) :
    firstCited (l ++ [p]) g w =
      (firstCited l g w).or
        (if p.1 = g ∧ pyStrip p.2.id = w then parsePyInt p.2.cited_by_count else none) := by
  unfold firstCited
  rw [List.findSome?_append]
  congr 1
  rw [List.findSome?_cons]
  cases hfp : (if p.1 = g ∧ pyStrip p.2.id = w then parsePyInt p.2.cited_by_count else none) with
  | none => rfl
  | some v => rfl

theorem sightings_append_single (l : List (Nat × Row)) (p : Nat × Row) (g : Nat) :
    groupWorkSightings (l ++ [p]) g =
      groupWorkSightings l g ++ (if p.1 = g then [pyStrip p.2.id] else []) := by
  unfold groupWorkSightings
  rw [List.filterMap_append]
  congr 1
  by_cases h : p.1 = g <;> simp [List.filterMap_cons, h]

theorem firstCited_mem_sightings {l : List (Nat × Row)} {g : Nat} {w : PyStr}
    (h : firstCited l g w ≠ none) : w ∈ groupWorkSightings l g := by
  cases hf : firstCited l g w with
  | none => exact absurd hf h
  | some v =>
    unfold firstCited at hf
    obtain ⟨p, hp, hfp⟩ := List.exists_of_findSome?_eq_some hf
    by_cases hc : p.1 = g ∧ pyStrip p.2.id = w
    · refine List.mem_filterMap.mpr ⟨p, hp, ?_⟩
      rw [if_pos hc.1, hc.2]
    · rw [if_neg hc] at hfp
      cases hfp

theorem firstCited_append_other {l : List (Nat × Row)} {p : Nat × Row} {g : Nat}
    (h : ¬p.1 = g) (w : PyStr) : firstCited (l ++ [p]) g w = firstCited l g w := by
  rw [firstCited_append_single, if_neg (fun hc => h hc.1), Option.or_none]

theorem filterMap_sum_update {l : List PyStr} (hnd : l.Nodup) {f f' : PyStr → Option Int}
    {a : PyStr} {v : Int} (ha : a ∈ l) (hfa : f a = none) (hf'a : f' a = some v)
    (hoth : ∀ b ∈ l, b ≠ a → f' b = f b) :
    (l.filterMap f').sum = v + (l.filterMap f).sum := by
  induction l with
  | nil => cases ha
  | cons x t ih =>
    rcases List.mem_cons.mp ha with rfl | hat
    · rw [List.filterMap_cons, List.filterMap_cons, hfa, hf'a]
      show (v :: t.filterMap f').sum = v + (t.filterMap f).sum
      have heq : t.filterMap f' = t.filterMap f := by
        refine List.filterMap_congr ?_
        intro b hb
        refine hoth b (List.mem_cons_of_mem _ hb) ?_
        rintro rfl
        exact (List.nodup_cons.mp hnd).1 hb
      rw [heq, List.sum_cons]
    · have hxa : x ≠ a := by
        rintro rfl
        exact (List.nodup_cons.mp hnd).1 hat
      have hfx : f' x = f x := hoth x (List.mem_cons_self _ _) hxa
      have ih' := ih (List.nodup_cons.mp hnd).2 hat
        (fun b hb hba => hoth b (List.mem_cons_of_mem _ hb) hba)
      rw [List.filterMap_cons, List.filterMap_cons, hfx]
      cases hx : f x with
      | none => exact ih'
      | some y =>
        show (y :: t.filterMap f').sum = v + (y :: t.filterMap f).sum
        rw [List.sum_cons, List.sum_cons, ih']
        omega

theorem rowGroup_some_data {st st1 : AggState} {r : Row} {g : Nat}
    (h : rowGroup st r = some (st1, g)) : st1.data = st.data := by
  rcases rowGroup_spec st r with h0 | ⟨g', he, _⟩ | ⟨g', he, _, _⟩ | ⟨he, _, _, _⟩
  · rw [h0] at h
    cases h
  · rw [he] at h
    injection h with h'
    have h2 : st = st1 := congrArg Prod.fst h'
    rw [← h2]
  · rw [he] at h
    injection h with h'
    have h2 : ({ st with nameMap := (pyStrip r.author_name, g') :: st.nameMap } : AggState) = st1 :=
      congrArg Prod.fst h'
    rw [← h2]
  · rw [he] at h
    injection h with h'
    have h2 : ({ st with
        nameMap := (pyStrip r.author_name, st.counter) :: st.nameMap,
        normMap := (normalize_name (pyStrip r.author_name), st.counter) :: st.normMap,
        names := (st.counter, normalize_name (pyStrip r.author_name)) :: st.names,
        counter := st.counter + 1 } : AggState) = st1 :=
      congrArg Prod.fst h'
    rw [← h2]

theorem updateGD_cited_none (r : Row) (work : PyStr) (d : GroupData)
    (hp : parsePyInt r.cited_by_count = none) :
    (updateGroupData r work d).cited_by_per_work = d.cited_by_per_work := by
  simp only [updateGD_cited, hp]

theorem updateGD_cited_insert (r : Row) (work : PyStr) (d : GroupData) {v : Int}
    (hp : parsePyInt r.cited_by_count = some v)
    (hlk : alookup d.cited_by_per_work work = none) :
    (updateGroupData r work d).cited_by_per_work = d.cited_by_per_work ++ [(work, v)] := by
  simp only [updateGD_cited, hp]
  rw [if_pos hlk]

theorem updateGD_cited_keep (r : Row) (work : PyStr) (d : GroupData) {v : Int}
    (hp : parsePyInt r.cited_by_count = some v)
    (hlk : ¬alookup d.cited_by_per_work work = none) :
    (updateGroupData r work d).cited_by_per_work = d.cited_by_per_work := by
  simp only [updateGD_cited, hp]
  rw [if_neg hlk]

theorem citedMap_spec (rows : List Row) :
    (∀ g w, alookup ((foldState rows).data g).cited_by_per_work w =
      firstCited (assign rows) g w) ∧
    (∀ g, (((foldState rows).data g).cited_by_per_work.map Prod.snd).sum =
      ((groupWorks (assign rows) g).filterMap (firstCited (assign rows) g)).sum) := by
  induction rows using List.reverseRecOn with
  | nil => exact ⟨fun g w => rfl, fun g => rfl⟩
  | append_singleton l r ih =>
    obtain ⟨ih1, ih2⟩ := ih
    have hfold : foldState (l ++ [r]) = stepRow (foldState l) r := by
      unfold foldState
      rw [List.foldl_append]
      rfl
    cases hrg : rowGroup (foldState l) r with
    | none =>
      have hassign : assign (l ++ [r]) = assign l := by
        rw [assign_append_single, assignAux_cons_none [] hrg]
        simp [assignAux]
      rw [hfold, stepRow_of_none hrg, hassign]
      exact ⟨ih1, ih2⟩
    | some p =>
      obtain ⟨st1, g0⟩ := p
      have hdata : st1.data = (foldState l).data := rowGroup_some_data hrg
      have hassign : assign (l ++ [r]) = assign l ++ [(g0, r)] := by
        rw [assign_append_single, assignAux_cons_some [] hrg]
        simp [assignAux]
      rw [hfold, stepRow_of_some hrg, hassign]
      constructor
      · intro g w
        dsimp only
        by_cases hg : g = g0
        · subst hg
          rw [if_pos rfl, hdata, firstCited_append_single]
          dsimp only
          cases hp : parsePyInt r.cited_by_count with
          | none =>
            rw [updateGD_cited_none _ _ _ hp, ite_self, Option.or_none]
            exact ih1 g w
          | some v =>
            by_cases hlk : alookup ((foldState l).data g).cited_by_per_work (pyStrip r.id) = none
            · rw [updateGD_cited_insert _ _ _ hp hlk, alookup_append_single, ih1 g w]
              by_cases hww : w = pyStrip r.id
              · rw [if_pos hww, if_pos ⟨rfl, hww.symm⟩]
              · rw [if_neg hww, if_neg (fun hc => hww hc.2.symm)]
            · rw [updateGD_cited_keep _ _ _ hp hlk, ih1 g w]
              by_cases hww : w = pyStrip r.id
              · subst hww
                cases hsome : firstCited (assign l) g (pyStrip r.id) with
                | none => exact absurd ((ih1 g (pyStrip r.id)).trans hsome) hlk
                | some x => rfl
              · rw [if_neg (fun hc => hww hc.2.symm), Option.or_none]
        · rw [if_neg hg, hdata, firstCited_append_other (fun hc => hg hc.symm) w]
          exact ih1 g w
      · intro g
        dsimp only
        by_cases hg : g = g0
        · subst hg
          rw [if_pos rfl, hdata]
          have hsight : groupWorkSightings (assign l ++ [(g, r)]) g =
              groupWorkSightings (assign l) g ++ [pyStrip r.id] := by
            rw [sightings_append_single, if_pos rfl]
          have hgw : groupWorks (assign l ++ [(g, r)]) g =
              groupWorks (assign l) g ++
                (if pyStrip r.id ∈ groupWorkSightings (assign l) g then []
                 else [pyStrip r.id]) := by
            unfold groupWorks
            rw [hsight, firstDedup_append_single]
            by_cases hmem : pyStrip r.id ∈ groupWorkSightings (assign l) g
            · rw [if_pos hmem, if_pos hmem]
            · rw [if_neg hmem, if_neg hmem]
          cases hp : parsePyInt r.cited_by_count with
          | none =>
            have hf : ∀ w, firstCited (assign l ++ [(g, r)]) g w =
                firstCited (assign l) g w := by
              intro w
              rw [firstCited_append_single]
              dsimp only
              rw [hp, ite_self, Option.or_none]
            rw [updateGD_cited_none _ _ _ hp, hgw]
            by_cases hmem : pyStrip r.id ∈ groupWorkSightings (assign l) g
            · rw [if_pos hmem, List.append_nil,
                List.filterMap_congr (fun w _ => hf w)]
              exact ih2 g
            · rw [if_neg hmem, List.filterMap_append,
                List.filterMap_congr (fun w _ => hf w)]
              have hnone : firstCited (assign l) g (pyStrip r.id) = none := by
                cases hval : firstCited (assign l) g (pyStrip r.id) with
                | none => rfl
                | some x =>
                  exact absurd (firstCited_mem_sightings (by rw [hval]; simp)) hmem
              rw [show List.filterMap (firstCited (assign l ++ [(g, r)]) g)
                  [pyStrip r.id] = [] by simp [List.filterMap_cons, hf, hnone],
                List.append_nil]
              exact ih2 g
          | some v =>
            by_cases hlk : alookup ((foldState l).data g).cited_by_per_work (pyStrip r.id) = none
            · have hfnone : firstCited (assign l) g (pyStrip r.id) = none :=
                ((ih1 g (pyStrip r.id)).symm).trans hlk
              have hfw : firstCited (assign l ++ [(g, r)]) g (pyStrip r.id) = some v := by
                rw [firstCited_append_single]
                dsimp only
                rw [hfnone, if_pos ⟨rfl, rfl⟩, hp]
                rfl
              have hfoth : ∀ w, w ≠ pyStrip r.id →
                  firstCited (assign l ++ [(g, r)]) g w = firstCited (assign l) g w := by
                intro w hw
                rw [firstCited_append_single]
                dsimp only
                rw [if_neg (fun hc => hw hc.2.symm), Option.or_none]
              rw [updateGD_cited_insert _ _ _ hp hlk, List.map_append, List.sum_append]
              rw [show (([(pyStrip r.id, v)] : List (PyStr × Int)).map Prod.snd).sum = v by
                simp]
              rw [hgw]
              by_cases hmem : pyStrip r.id ∈ groupWorkSightings (assign l) g
              · rw [if_pos hmem, List.append_nil]
                rw [filterMap_sum_update
                  (show (groupWorks (assign l) g).Nodup from firstDedup_nodup _)
                  (show pyStrip r.id ∈ groupWorks (assign l) g from
                    (mem_firstDedup _ _).mpr hmem) hfnone hfw
                  (fun b _ hb => hfoth b hb)]
                rw [ih2 g]
                omega
              · rw [if_neg hmem, List.filterMap_append]
                have hfsub : ∀ b ∈ groupWorks (assign l) g,
                    firstCited (assign l ++ [(g, r)]) g b = firstCited (assign l) g b := by
                  intro b hb
                  refine hfoth b ?_
                  rintro rfl
                  exact hmem ((mem_firstDedup _ _).mp hb)
                rw [List.filterMap_congr hfsub]
                rw [show List.filterMap (firstCited (assign l ++ [(g, r)]) g)
                    [pyStrip r.id] = [v] by simp [List.filterMap_cons, hfw]]
                rw [List.sum_append, ih2 g]
                simp
            · have hfsome : firstCited (assign l) g (pyStrip r.id) ≠ none := by
                rw [← ih1 g (pyStrip r.id)]
                exact hlk
              have hf : ∀ w, firstCited (assign l ++ [(g, r)]) g w =
                  firstCited (assign l) g w := by
                intro w
                rw [firstCited_append_single]
                dsimp only
                by_cases hww : pyStrip r.id = w
                · subst hww
                  rw [if_pos ⟨rfl, rfl⟩, hp]
                  cases hs : firstCited (assign l) g (pyStrip r.id) with
                  | none => exact absurd hs hfsome
                  | some x => rfl
                · rw [if_neg (fun hc => hww hc.2), Option.or_none]
              rw [updateGD_cited_keep _ _ _ hp hlk, hgw]
              have hmem : pyStrip r.id ∈ groupWorkSightings (assign l) g :=
                firstCited_mem_sightings hfsome
              rw [if_pos hmem, List.append_nil,
                List.filterMap_congr (fun w _ => hf w)]
              exact ih2 g
        · rw [if_neg hg, hdata]
          have hs : groupWorkSightings (assign l ++ [(g0, r)]) g =
              groupWorkSightings (assign l) g := by
            rw [sightings_append_single, if_neg (fun hc => hg (hc.symm)), List.append_nil]
          unfold groupWorks
          rw [hs, List.filterMap_congr
            (fun w _ => firstCited_append_other (fun hc => hg hc.symm) w)]
          exact ih2 g

theorem insByWorks_perm (r : OutputRow) (l : List OutputRow) :
    (insByWorks r l).Perm (r :: l) := by
  induction l with
  | nil => exact List.Perm.refl _
  | cons x t ih =>
    rw [insByWorks]
    split_ifs with h
    · exact ((ih.cons x).trans (List.Perm.swap r x t)).symm.symm
    · exact List.Perm.refl _

theorem sortByWorks_perm (l : List OutputRow) : (sortByWorks l).Perm l := by
  induction l with
  | nil => exact List.Perm.refl _
  | cons x t ih =>
    show (insByWorks x (sortByWorks t)).Perm (x :: t)
    exact (insByWorks_perm x (sortByWorks t)).trans (ih.cons x)

/-- C3, counterexample: with two rows of one group and one work whose
citation cells read "x" then "5", the code's group total is 5 (the first
parseable value), while the claim's total - one value per distinct work,
that of the first row seen, malformed cells defaulting to the spec's
zero - is 0.  The claimed equality fails on the code. -/
theorem claim_C3_counterexample :
    (outputRowOf (foldState [c3Row1, c3Row2]) 0).cited_by_count = 5 ∧
    claimFirstRowCitedSum (assign [c3Row1, c3Row2]) 0 = 0 := by decide

/-- C3, amended: each group's output cited_by_count is the sum of exactly
one citation value per distinct work id attributed to that group, namely
the value of the first row for that (group, work id) whose citation cell
parses as an integer; works all of whose rows fail to parse contribute
nothing, and repetitions of a work never re-count.  The sorted output is
a permutation of the per-group rows. -/
theorem claim_C3_amended_first_parseable_value (rows : List Row) :
    (aggregate_authors rows).Perm (outputRowsPre (foldState rows)) ∧
    ∀ g, (outputRowOf (foldState rows) g).cited_by_count =
      ((groupWorks (assign rows) g).filterMap (firstCited (assign rows) g)).sum := by
  constructor
  · exact sortByWorks_perm _
  · intro g
    exact (citedMap_spec rows).2 g

/-! ### Duplicate-row absorption (claim C8) -/

theorem intLt_trans : ∀ a b c : Int, decide (a < b) = true → decide (b < c) = true →
    decide (a < c) = true :=
  fun _ _ _ h1 h2 => decide_eq_true (lt_trans (of_decide_eq_true h1) (of_decide_eq_true h2))

theorem intLt_irrefl : ∀ a : Int, decide (a < a) = false :=
  fun a => decide_eq_false (lt_irrefl a)

theorem intLt_total : ∀ a b : Int, a ≠ b → decide (a < b) = true ∨ decide (b < a) = true :=
  fun _ _ h => (lt_or_gt_of_ne h).imp decide_eq_true decide_eq_true

theorem insStr_sorted (x : PyStr) (s : List PyStr) (hs : strSetSorted s) :
    strSetSorted (insStr x s) :=
  insertOrd_chain strLt strLt_total hs

theorem insInt_sorted (x : Int) (s : List Int) (hs : intSetSorted s) :
    intSetSorted (insInt x s) := by
  have h1 : s.Chain' (fun a b : Int => decide (a < b) = true) :=
    hs.imp (fun _ _ hab => decide_eq_true hab)
  have h2 : List.Chain' (fun a b : Int => decide (a < b) = true)
      (insertOrd (fun a b : Int => decide (a < b)) x s) :=
    insertOrd_chain (fun a b : Int => decide (a < b)) intLt_total h1
  exact h2.imp (fun _ _ hab => of_decide_eq_true hab)

theorem GDle_refl (d : GroupData) : GDle d d :=
  ⟨fun _ h => h, fun _ h => h, fun _ h => h, fun _ h => h, fun _ h => h,
   fun _ h => h, fun _ h => h, fun _ h => h, fun _ h => h⟩

theorem GDle_trans {a b c : GroupData} (h1 : GDle a b) (h2 : GDle b c) : GDle a c :=
  ⟨fun x hx => h2.1 x (h1.1 x hx),
   fun x hx => h2.2.1 x (h1.2.1 x hx),
   fun x hx => h2.2.2.1 x (h1.2.2.1 x hx),
   fun w hw => h2.2.2.2.1 w (h1.2.2.2.1 w hw),
   fun y hy => h2.2.2.2.2.1 y (h1.2.2.2.2.1 y hy),
   fun x hx => h2.2.2.2.2.2.1 x (h1.2.2.2.2.2.1 x hx),
   fun x hx => h2.2.2.2.2.2.2.1 x (h1.2.2.2.2.2.2.1 x hx),
   fun x hx => h2.2.2.2.2.2.2.2.1 x (h1.2.2.2.2.2.2.2.1 x hx),
   fun x hx => h2.2.2.2.2.2.2.2.2 x (h1.2.2.2.2.2.2.2.2 x hx)⟩

theorem alookup_append_nn {α β : Type} [DecidableEq α] (m : List (α × β)) (a : α) (b : β)
    (k : α) (h : alookup m k ≠ none) : alookup (m ++ [(a, b)]) k ≠ none := by
  rw [alookup_append_single]
  cases hm : alookup m k with
  | none => exact absurd hm h
  | some u => exact fun hcon => Option.noConfusion hcon

theorem updAuthorIds_le (r : Row) (d : GroupData) : GDle d (updAuthorIds r d) := by
  unfold updAuthorIds
  split_ifs
  · exact ⟨fun x hx => insertOrd_mem_of strLt _ _ hx, fun _ h => h, fun _ h => h,
      fun _ h => h, fun _ h => h, fun _ h => h, fun _ h => h, fun _ h => h, fun _ h => h⟩
  · exact GDle_refl d

theorem updWorkIds_le (wk : PyStr) (d : GroupData) : GDle d (updWorkIds wk d) :=
  ⟨fun _ h => h, fun _ hx => insertOrd_mem_of strLt _ _ hx, fun _ h => h,
   fun _ h => h, fun _ h => h, fun _ h => h, fun _ h => h, fun _ h => h, fun _ h => h⟩

theorem updSourceIds_le (r : Row) (d : GroupData) : GDle d (updSourceIds r d) := by
  unfold updSourceIds
  split_ifs
  · exact ⟨fun _ h => h, fun _ h => h, fun _ h => h, fun _ h => h, fun _ h => h,
      fun x hx => insertOrd_mem_of strLt _ _ hx, fun _ h => h, fun _ h => h, fun _ h => h⟩
  · exact GDle_refl d

theorem updSpecific_le (r : Row) (wk : PyStr) (d : GroupData) : GDle d (updSpecific r wk d) := by
  unfold updSpecific
  split_ifs
  · exact ⟨fun _ h => h, fun _ h => h, fun x hx => insertOrd_mem_of strLt _ _ hx,
      fun _ h => h, fun _ h => h, fun _ h => h, fun _ h => h, fun _ h => h, fun _ h => h⟩
  · exact GDle_refl d

theorem updCited_le (r : Row) (wk : PyStr) (d : GroupData) : GDle d (updCited r wk d) := by
  unfold updCited
  cases parsePyInt r.cited_by_count with
  | none => exact GDle_refl d
  | some v =>
    split_ifs
    · exact ⟨fun _ h => h, fun _ h => h, fun _ h => h,
        fun w hw => alookup_append_nn d.cited_by_per_work wk v w hw,
        fun _ h => h, fun _ h => h, fun _ h => h, fun _ h => h, fun _ h => h⟩
    · exact GDle_refl d

theorem updYears_le (r : Row) (d : GroupData) : GDle d (updYears r d) := by
  unfold updYears
  cases rowYear r with
  | none => exact GDle_refl d
  | some y =>
    exact ⟨fun _ h => h, fun _ h => h, fun _ h => h, fun _ h => h,
      fun x hx => insertOrd_mem_of (fun a b : Int => decide (a < b)) _ _ hx,
      fun _ h => h, fun _ h => h, fun _ h => h, fun _ h => h⟩

theorem foldInsts_le : ∀ (l : List PyStr) (d : GroupData),
    GDle d (l.foldl (fun d i => { d with institutions := insStr i d.institutions }) d) := by
  intro l
  induction l with
  | nil => exact fun d => GDle_refl d
  | cons a t ih =>
    intro d
    refine GDle_trans ?_ (ih { d with institutions := insStr a d.institutions })
    exact ⟨fun _ h => h, fun _ h => h, fun _ h => h, fun _ h => h, fun _ h => h,
      fun _ h => h, fun x hx => insertOrd_mem_of strLt _ _ hx, fun _ h => h, fun _ h => h⟩

theorem foldCountries_le : ∀ (l : List PyStr) (d : GroupData),
    GDle d (l.foldl (fun d c => { d with countries := insStr c d.countries }) d) := by
  intro l
  induction l with
  | nil => exact fun d => GDle_refl d
  | cons a t ih =>
    intro d
    refine GDle_trans ?_ (ih { d with countries := insStr a d.countries })
    exact ⟨fun _ h => h, fun _ h => h, fun _ h => h, fun _ h => h, fun _ h => h,
      fun _ h => h, fun _ h => h, fun x hx => insertOrd_mem_of strLt _ _ hx, fun _ h => h⟩

theorem foldAffs_le : ∀ (l : List PyStr) (d : GroupData),
    GDle d (l.foldl (fun d a => { d with affiliations := insStr a d.affiliations }) d) := by
  intro l
  induction l with
  | nil => exact fun d => GDle_refl d
  | cons a t ih =>
    intro d
    refine GDle_trans ?_ (ih { d with affiliations := insStr a d.affiliations })
    exact ⟨fun _ h => h, fun _ h => h, fun _ h => h, fun _ h => h, fun _ h => h,
      fun _ h => h, fun _ h => h, fun _ h => h, fun x hx => insertOrd_mem_of strLt _ _ hx⟩

theorem updInsts_le (r : Row) (d : GroupData) : GDle d (updInsts r d) :=
  foldInsts_le (splitSemiClean r.institutions) d

theorem updCountries_le (r : Row) (d : GroupData) : GDle d (updCountries r d) :=
  foldCountries_le (splitSemiClean r.countries) d

theorem updAffs_le (r : Row) (d : GroupData) : GDle d (updAffs r d) :=
  foldAffs_le (splitSemiClean r.affiliations_comment) d

theorem gd_le1 (r : Row) (d : GroupData) : GDle d (updAffs r d) :=
  updAffs_le r d

theorem gd_le2 (r : Row) (d : GroupData) : GDle d (updAffs r (updCountries r d)) :=
  GDle_trans (updCountries_le r d) (gd_le1 r (updCountries r d))

theorem gd_le3 (r : Row) (d : GroupData) :
    GDle d (updAffs r (updCountries r (updInsts r d))) :=
  GDle_trans (updInsts_le r d) (gd_le2 r (updInsts r d))

theorem gd_le4 (r : Row) (d : GroupData) :
    GDle d (updAffs r (updCountries r (updInsts r (updYears r d)))) :=
  GDle_trans (updYears_le r d) (gd_le3 r (updYears r d))

theorem gd_le5 (r : Row) (wk : PyStr) (d : GroupData) :
    GDle d (updAffs r (updCountries r (updInsts r (updYears r (updCited r wk d))))) :=
  GDle_trans (updCited_le r wk d) (gd_le4 r (updCited r wk d))

theorem gd_le6 (r : Row) (wk : PyStr) (d : GroupData) :
    GDle d (updAffs r (updCountries r (updInsts r (updYears r (updCited r wk
      (updSpecific r wk d)))))) :=
  GDle_trans (updSpecific_le r wk d) (gd_le5 r wk (updSpecific r wk d))

theorem gd_le7 (r : Row) (wk : PyStr) (d : GroupData) :
    GDle d (updAffs r (updCountries r (updInsts r (updYears r (updCited r wk
      (updSpecific r wk (updSourceIds r d))))))) :=
  GDle_trans (updSourceIds_le r d) (gd_le6 r wk (updSourceIds r d))

theorem gd_le8 (r : Row) (wk : PyStr) (d : GroupData) :
    GDle d (updAffs r (updCountries r (updInsts r (updYears r (updCited r wk
      (updSpecific r wk (updSourceIds r (updWorkIds wk d)))))))) :=
  GDle_trans (updWorkIds_le wk d) (gd_le7 r wk (updWorkIds wk d))

theorem updateGD_le (r : Row) (wk : PyStr) (d : GroupData) :
    GDle d (updateGroupData r wk d) := by
  unfold updateGroupData
  exact GDle_trans (updAuthorIds_le r d) (gd_le8 r wk (updAuthorIds r d))

theorem updateGD_mem_author (r : Row) (wk : PyStr) (d : GroupData)
    (h : pyStrip r.author_id ≠ []) :
    pyStrip r.author_id ∈ (updateGroupData r wk d).author_ids := by
  have h1 : pyStrip r.author_id ∈ (updAuthorIds r d).author_ids := by
    unfold updAuthorIds
    rw [if_pos h]
    exact insertOrd_mem_self strLt _ _
  unfold updateGroupData
  exact (gd_le8 r wk (updAuthorIds r d)).1 _ h1

theorem updateGD_mem_work (r : Row) (wk : PyStr) (d : GroupData) :
    wk ∈ (updateGroupData r wk d).work_ids := by
  have h1 : wk ∈ (updWorkIds wk (updAuthorIds r d)).work_ids :=
    insertOrd_mem_self strLt _ _
  unfold updateGroupData
  exact (gd_le7 r wk (updWorkIds wk (updAuthorIds r d))).2.1 _ h1

theorem updateGD_mem_source (r : Row) (wk : PyStr) (d : GroupData)
    (h : pyStrip r.source_id ≠ []) :
    pyStrip r.source_id ∈ (updateGroupData r wk d).source_ids := by
  have h1 : pyStrip r.source_id ∈
      (updSourceIds r (updWorkIds wk (updAuthorIds r d))).source_ids := by
    unfold updSourceIds
    rw [if_pos h]
    exact insertOrd_mem_self strLt _ _
  unfold updateGroupData
  exact (gd_le6 r wk (updSourceIds r (updWorkIds wk (updAuthorIds r d)))).2.2.2.2.2.1 _ h1

theorem updateGD_mem_specific (r : Row) (wk : PyStr) (d : GroupData)
    (h : r.references_israel.map pyLower ∈
      [ofString ("yes"), ofString ("true"), ofString ("1")]) :
    wk ∈ (updateGroupData r wk d).specific_work_ids := by
  have h1 : wk ∈ (updSpecific r wk
      (updSourceIds r (updWorkIds wk (updAuthorIds r d)))).specific_work_ids := by
    unfold updSpecific
    rw [if_pos h]
    exact insertOrd_mem_self strLt _ _
  unfold updateGroupData
  exact (gd_le5 r wk (updSpecific r wk
    (updSourceIds r (updWorkIds wk (updAuthorIds r d))))).2.2.1 _ h1

theorem updateGD_cited_nn (r : Row) (wk : PyStr) (d : GroupData) (v : Int)
    (hv : parsePyInt r.cited_by_count = some v) :
    alookup (updateGroupData r wk d).cited_by_per_work wk ≠ none := by
  have h1 : alookup (updCited r wk
      (updSpecific r wk (updSourceIds r (updWorkIds wk (updAuthorIds r d))))).cited_by_per_work
        wk ≠ none := by
    simp only [updCited, hv]
    by_cases hlk : alookup (updSpecific r wk
        (updSourceIds r (updWorkIds wk (updAuthorIds r d)))).cited_by_per_work wk = none
    · rw [if_pos hlk]
      show alookup (_ ++ [(wk, v)]) wk ≠ none
      rw [alookup_append_single, hlk, if_pos rfl]
      exact fun hcon => Option.noConfusion hcon
    · rw [if_neg hlk]
      exact hlk
  unfold updateGroupData
  exact (gd_le4 r (updCited r wk
    (updSpecific r wk (updSourceIds r (updWorkIds wk (updAuthorIds r d)))))).2.2.2.1 _ h1

theorem updateGD_mem_years (r : Row) (wk : PyStr) (d : GroupData) (y : Int)
    (hy : rowYear r = some y) : y ∈ (updateGroupData r wk d).years := by
  have h1 : y ∈ (updYears r (updCited r wk
      (updSpecific r wk (updSourceIds r (updWorkIds wk (updAuthorIds r d)))))).years := by
    unfold updYears
    rw [hy]
    exact insertOrd_mem_self (fun a b : Int => decide (a < b)) _ _
  unfold updateGroupData
  exact (gd_le3 r (updYears r (updCited r wk
    (updSpecific r wk (updSourceIds r (updWorkIds wk (updAuthorIds r d))))))).2.2.2.2.1 _ h1

theorem foldInsts_mem : ∀ (l : List PyStr) (d : GroupData), ∀ x ∈ l,
    x ∈ (l.foldl (fun d i => { d with institutions := insStr i d.institutions }) d).institutions := by
  intro l
  induction l with
  | nil => intro d x hx; cases hx
  | cons a t ih =>
    intro d x hx
    rcases List.mem_cons.mp hx with rfl | hx'
    · have h1 : x ∈ ({ d with institutions := insStr x d.institutions } : GroupData).institutions :=
        insertOrd_mem_self strLt _ _
      exact (foldInsts_le t _).2.2.2.2.2.2.1 _ h1
    · exact ih _ x hx'

theorem foldCountries_mem : ∀ (l : List PyStr) (d : GroupData), ∀ x ∈ l,
    x ∈ (l.foldl (fun d c => { d with countries := insStr c d.countries }) d).countries := by
  intro l
  induction l with
  | nil => intro d x hx; cases hx
  | cons a t ih =>
    intro d x hx
    rcases List.mem_cons.mp hx with rfl | hx'
    · have h1 : x ∈ ({ d with countries := insStr x d.countries } : GroupData).countries :=
        insertOrd_mem_self strLt _ _
      exact (foldCountries_le t _).2.2.2.2.2.2.2.1 _ h1
    · exact ih _ x hx'

theorem foldAffs_mem : ∀ (l : List PyStr) (d : GroupData), ∀ x ∈ l,
    x ∈ (l.foldl (fun d a => { d with affiliations := insStr a d.affiliations }) d).affiliations := by
  intro l
  induction l with
  | nil => intro d x hx; cases hx
  | cons a t ih =>
    intro d x hx
    rcases List.mem_cons.mp hx with rfl | hx'
    · have h1 : x ∈ ({ d with affiliations := insStr x d.affiliations } : GroupData).affiliations :=
        insertOrd_mem_self strLt _ _
      exact (foldAffs_le t _).2.2.2.2.2.2.2.2 _ h1
    · exact ih _ x hx'

theorem updateGD_mem_insts (r : Row) (wk : PyStr) (d : GroupData) (i : PyStr)
    (hi : i ∈ splitSemiClean r.institutions) : i ∈ (updateGroupData r wk d).institutions := by
  have h1 : i ∈ (updInsts r (updYears r (updCited r wk
      (updSpecific r wk (updSourceIds r (updWorkIds wk (updAuthorIds r d))))))).institutions :=
    foldInsts_mem _ _ i hi
  unfold updateGroupData
  exact (gd_le2 r (updInsts r (updYears r (updCited r wk
    (updSpecific r wk (updSourceIds r (updWorkIds wk (updAuthorIds r d)))))))).2.2.2.2.2.2.1 _ h1

theorem updateGD_mem_countries (r : Row) (wk : PyStr) (d : GroupData) (c : PyStr)
    (hc : c ∈ splitSemiClean r.countries) : c ∈ (updateGroupData r wk d).countries := by
  have h1 : c ∈ (updCountries r (updInsts r (updYears r (updCited r wk
      (updSpecific r wk (updSourceIds r (updWorkIds wk (updAuthorIds r d)))))))).countries :=
    foldCountries_mem _ _ c hc
  unfold updateGroupData
  exact (gd_le1 r (updCountries r (updInsts r (updYears r (updCited r wk
    (updSpecific r wk (updSourceIds r (updWorkIds wk
      (updAuthorIds r d))))))))).2.2.2.2.2.2.2.1 _ h1

theorem updateGD_mem_affs (r : Row) (wk : PyStr) (d : GroupData) (a : PyStr)
    (ha : a ∈ splitSemiClean r.affiliations_comment) :
    a ∈ (updateGroupData r wk d).affiliations := by
  unfold updateGroupData
  exact foldAffs_mem _ _ a ha

theorem updAuthorIds_sorted (r : Row) (d : GroupData) (h : SortedGD d) :
    SortedGD (updAuthorIds r d) := by
  unfold updAuthorIds
  split_ifs
  · exact ⟨insStr_sorted _ _ h.1, h.2.1, h.2.2.1, h.2.2.2.1, h.2.2.2.2.1,
      h.2.2.2.2.2.1, h.2.2.2.2.2.2.1, h.2.2.2.2.2.2.2⟩
  · exact h

theorem updWorkIds_sorted (wk : PyStr) (d : GroupData) (h : SortedGD d) :
    SortedGD (updWorkIds wk d) :=
  ⟨h.1, insStr_sorted _ _ h.2.1, h.2.2.1, h.2.2.2.1, h.2.2.2.2.1,
   h.2.2.2.2.2.1, h.2.2.2.2.2.2.1, h.2.2.2.2.2.2.2⟩

theorem updSourceIds_sorted (r : Row) (d : GroupData) (h : SortedGD d) :
    SortedGD (updSourceIds r d) := by
  unfold updSourceIds
  split_ifs
  · exact ⟨h.1, h.2.1, h.2.2.1, h.2.2.2.1, insStr_sorted _ _ h.2.2.2.2.1,
      h.2.2.2.2.2.1, h.2.2.2.2.2.2.1, h.2.2.2.2.2.2.2⟩
  · exact h

theorem updSpecific_sorted (r : Row) (wk : PyStr) (d : GroupData) (h : SortedGD d) :
    SortedGD (updSpecific r wk d) := by
  unfold updSpecific
  split_ifs
  · exact ⟨h.1, h.2.1, insStr_sorted _ _ h.2.2.1, h.2.2.2.1, h.2.2.2.2.1,
      h.2.2.2.2.2.1, h.2.2.2.2.2.2.1, h.2.2.2.2.2.2.2⟩
  · exact h

theorem updCited_sorted (r : Row) (wk : PyStr) (d : GroupData) (h : SortedGD d) :
    SortedGD (updCited r wk d) := by
  unfold updCited
  cases parsePyInt r.cited_by_count with
  | none => exact h
  | some v =>
    split_ifs
    · exact ⟨h.1, h.2.1, h.2.2.1, h.2.2.2.1, h.2.2.2.2.1,
        h.2.2.2.2.2.1, h.2.2.2.2.2.2.1, h.2.2.2.2.2.2.2⟩
    · exact h

theorem updYears_sorted (r : Row) (d : GroupData) (h : SortedGD d) :
    SortedGD (updYears r d) := by
  unfold updYears
  cases rowYear r with
  | none => exact h
  | some y =>
    exact ⟨h.1, h.2.1, h.2.2.1, insInt_sorted _ _ h.2.2.2.1, h.2.2.2.2.1,
      h.2.2.2.2.2.1, h.2.2.2.2.2.2.1, h.2.2.2.2.2.2.2⟩

theorem foldInsts_sorted : ∀ (l : List PyStr) (d : GroupData), SortedGD d →
    SortedGD (l.foldl (fun d i => { d with institutions := insStr i d.institutions }) d) := by
  intro l
  induction l with
  | nil => exact fun d h => h
  | cons a t ih =>
    intro d h
    exact ih _ ⟨h.1, h.2.1, h.2.2.1, h.2.2.2.1, h.2.2.2.2.1,
      insStr_sorted _ _ h.2.2.2.2.2.1, h.2.2.2.2.2.2.1, h.2.2.2.2.2.2.2⟩

theorem foldCountries_sorted : ∀ (l : List PyStr) (d : GroupData), SortedGD d →
    SortedGD (l.foldl (fun d c => { d with countries := insStr c d.countries }) d) := by
  intro l
  induction l with
  | nil => exact fun d h => h
  | cons a t ih =>
    intro d h
    exact ih _ ⟨h.1, h.2.1, h.2.2.1, h.2.2.2.1, h.2.2.2.2.1,
      h.2.2.2.2.2.1, insStr_sorted _ _ h.2.2.2.2.2.2.1, h.2.2.2.2.2.2.2⟩

theorem foldAffs_sorted : ∀ (l : List PyStr) (d : GroupData), SortedGD d →
    SortedGD (l.foldl (fun d a => { d with affiliations := insStr a d.affiliations }) d) := by
  intro l
  induction l with
  | nil => exact fun d h => h
  | cons a t ih =>
    intro d h
    exact ih _ ⟨h.1, h.2.1, h.2.2.1, h.2.2.2.1, h.2.2.2.2.1,
      h.2.2.2.2.2.1, h.2.2.2.2.2.2.1, insStr_sorted _ _ h.2.2.2.2.2.2.2⟩

theorem updateGD_sorted (r : Row) (wk : PyStr) (d : GroupData) (h : SortedGD d) :
    SortedGD (updateGroupData r wk d) := by
  unfold updateGroupData
  exact foldAffs_sorted _ _ (foldCountries_sorted _ _ (foldInsts_sorted _ _
    (updYears_sorted r _ (updCited_sorted r wk _ (updSpecific_sorted r wk _
      (updSourceIds_sorted r _ (updWorkIds_sorted wk _ (updAuthorIds_sorted r d h))))))))

theorem sortedGD_init : SortedGD {} :=
  ⟨List.chain'_nil, List.chain'_nil, List.chain'_nil, List.chain'_nil,
   List.chain'_nil, List.chain'_nil, List.chain'_nil, List.chain'_nil⟩

theorem stepRow_sorted {st : AggState} {r : Row} (h : SortedState st) :
    SortedState (stepRow st r) := by
  intro g
  cases heq : rowGroup st r with
  | none =>
    rw [stepRow_of_none heq]
    exact h g
  | some p =>
    obtain ⟨st1, g0⟩ := p
    have hd : st1.data = st.data := rowGroup_some_data heq
    rw [stepRow_of_some heq]
    show SortedGD (if g = g0 then updateGroupData r (pyStrip r.id) (st1.data g0)
      else st1.data g)
    by_cases hg : g = g0
    · rw [if_pos hg, hd]
      exact updateGD_sorted r _ _ (h g0)
    · rw [if_neg hg, hd]
      exact h g

theorem foldState_sorted (rows : List Row) : SortedState (foldState rows) := by
  have h0 : SortedState ({} : AggState) := fun _ => sortedGD_init
  exact foldl_inv (fun s x hs => stepRow_sorted hs) rows {} h0

theorem updAuthorIds_noop (r : Row) (d : GroupData) (hs : strSetSorted d.author_ids)
    (h : pyStrip r.author_id ≠ [] → pyStrip r.author_id ∈ d.author_ids) :
    updAuthorIds r d = d := by
  unfold updAuthorIds
  split_ifs with hc
  · have h1 : insStr (pyStrip r.author_id) d.author_ids = d.author_ids :=
      insertOrd_eq_of_mem strLt strLt_trans strLt_irrefl hs (h hc)
    rw [h1]
  · rfl

theorem updWorkIds_noop (wk : PyStr) (d : GroupData) (hs : strSetSorted d.work_ids)
    (h : wk ∈ d.work_ids) : updWorkIds wk d = d := by
  unfold updWorkIds
  have h1 : insStr wk d.work_ids = d.work_ids :=
    insertOrd_eq_of_mem strLt strLt_trans strLt_irrefl hs h
  rw [h1]

theorem updSourceIds_noop (r : Row) (d : GroupData) (hs : strSetSorted d.source_ids)
    (h : pyStrip r.source_id ≠ [] → pyStrip r.source_id ∈ d.source_ids) :
    updSourceIds r d = d := by
  unfold updSourceIds
  split_ifs with hc
  · have h1 : insStr (pyStrip r.source_id) d.source_ids = d.source_ids :=
      insertOrd_eq_of_mem strLt strLt_trans strLt_irrefl hs (h hc)
    rw [h1]
  · rfl

theorem updSpecific_noop (r : Row) (wk : PyStr) (d : GroupData)
    (hs : strSetSorted d.specific_work_ids)
    (h : r.references_israel.map pyLower ∈
        [ofString ("yes"), ofString ("true"), ofString ("1")] →
      wk ∈ d.specific_work_ids) :
    updSpecific r wk d = d := by
  unfold updSpecific
  split_ifs with hc
  · have h1 : insStr wk d.specific_work_ids = d.specific_work_ids :=
      insertOrd_eq_of_mem strLt strLt_trans strLt_irrefl hs (h hc)
    rw [h1]
  · rfl

theorem updCited_noop (r : Row) (wk : PyStr) (d : GroupData)
    (h : ∀ v, parsePyInt r.cited_by_count = some v →
      alookup d.cited_by_per_work wk ≠ none) :
    updCited r wk d = d := by
  unfold updCited
  cases hp : parsePyInt r.cited_by_count with
  | none => rfl
  | some v =>
    show (if alookup d.cited_by_per_work wk = none then
      { d with cited_by_per_work := d.cited_by_per_work ++ [(wk, v)] } else d) = d
    rw [if_neg (h v hp)]

theorem updYears_noop (r : Row) (d : GroupData) (hs : intSetSorted d.years)
    (h : ∀ y, rowYear r = some y → y ∈ d.years) : updYears r d = d := by
  unfold updYears
  cases hy : rowYear r with
  | none => rfl
  | some y =>
    have h1 : insInt y d.years = d.years :=
      insertOrd_eq_of_mem (fun a b : Int => decide (a < b)) intLt_trans intLt_irrefl
        (hs.imp (fun _ _ hab => decide_eq_true hab)) (h y hy)
    show ({ d with years := insInt y d.years } : GroupData) = d
    rw [h1]

theorem foldInsts_noop : ∀ (l : List PyStr) (d : GroupData), strSetSorted d.institutions →
    (∀ x ∈ l, x ∈ d.institutions) →
    l.foldl (fun d i => { d with institutions := insStr i d.institutions }) d = d := by
  intro l
  induction l with
  | nil => exact fun d _ _ => rfl
  | cons a t ih =>
    intro d hs h
    have h1 : insStr a d.institutions = d.institutions :=
      insertOrd_eq_of_mem strLt strLt_trans strLt_irrefl hs (h a (List.mem_cons_self a t))
    show t.foldl _ { d with institutions := insStr a d.institutions } = d
    rw [h1]
    exact ih d hs (fun x hx => h x (List.mem_cons_of_mem a hx))

theorem foldCountries_noop : ∀ (l : List PyStr) (d : GroupData), strSetSorted d.countries →
    (∀ x ∈ l, x ∈ d.countries) →
    l.foldl (fun d c => { d with countries := insStr c d.countries }) d = d := by
  intro l
  induction l with
  | nil => exact fun d _ _ => rfl
  | cons a t ih =>
    intro d hs h
    have h1 : insStr a d.countries = d.countries :=
      insertOrd_eq_of_mem strLt strLt_trans strLt_irrefl hs (h a (List.mem_cons_self a t))
    show t.foldl _ { d with countries := insStr a d.countries } = d
    rw [h1]
    exact ih d hs (fun x hx => h x (List.mem_cons_of_mem a hx))

theorem foldAffs_noop : ∀ (l : List PyStr) (d : GroupData), strSetSorted d.affiliations →
    (∀ x ∈ l, x ∈ d.affiliations) →
    l.foldl (fun d a => { d with affiliations := insStr a d.affiliations }) d = d := by
  intro l
  induction l with
  | nil => exact fun d _ _ => rfl
  | cons a t ih =>
    intro d hs h
    have h1 : insStr a d.affiliations = d.affiliations :=
      insertOrd_eq_of_mem strLt strLt_trans strLt_irrefl hs (h a (List.mem_cons_self a t))
    show t.foldl _ { d with affiliations := insStr a d.affiliations } = d
    rw [h1]
    exact ih d hs (fun x hx => h x (List.mem_cons_of_mem a hx))

theorem updInsts_noop (r : Row) (d : GroupData) (hs : strSetSorted d.institutions)
    (h : ∀ i ∈ splitSemiClean r.institutions, i ∈ d.institutions) : updInsts r d = d :=
  foldInsts_noop _ d hs h

theorem updCountries_noop (r : Row) (d : GroupData) (hs : strSetSorted d.countries)
    (h : ∀ c ∈ splitSemiClean r.countries, c ∈ d.countries) : updCountries r d = d :=
  foldCountries_noop _ d hs h

theorem updAffs_noop (r : Row) (d : GroupData) (hs : strSetSorted d.affiliations)
    (h : ∀ a ∈ splitSemiClean r.affiliations_comment, a ∈ d.affiliations) :
    updAffs r d = d :=
  foldAffs_noop _ d hs h

theorem updateGD_noop (r : Row) (wk : PyStr) (d : GroupData) (hs : SortedGD d)
    (ha : pyStrip r.author_id ≠ [] → pyStrip r.author_id ∈ d.author_ids)
    (hw : wk ∈ d.work_ids)
    (hso : pyStrip r.source_id ≠ [] → pyStrip r.source_id ∈ d.source_ids)
    (hsp : r.references_israel.map pyLower ∈
        [ofString ("yes"), ofString ("true"), ofString ("1")] →
      wk ∈ d.specific_work_ids)
    (hc : ∀ v, parsePyInt r.cited_by_count = some v →
      alookup d.cited_by_per_work wk ≠ none)
    (hy : ∀ y, rowYear r = some y → y ∈ d.years)
    (hi : ∀ i ∈ splitSemiClean r.institutions, i ∈ d.institutions)
    (hco : ∀ c ∈ splitSemiClean r.countries, c ∈ d.countries)
    (haf : ∀ a ∈ splitSemiClean r.affiliations_comment, a ∈ d.affiliations) :
    updateGroupData r wk d = d := by
  unfold updateGroupData
  rw [updAuthorIds_noop r d hs.1 ha, updWorkIds_noop wk d hs.2.1 hw,
    updSourceIds_noop r d hs.2.2.2.2.1 hso, updSpecific_noop r wk d hs.2.2.1 hsp,
    updCited_noop r wk d hc, updYears_noop r d hs.2.2.2.1 hy,
    updInsts_noop r d hs.2.2.2.2.2.1 hi, updCountries_noop r d hs.2.2.2.2.2.2.1 hco,
    updAffs_noop r d hs.2.2.2.2.2.2.2 haf]

theorem rowGroup_name_hit {st st1 : AggState} {r : Row} {g : Nat}
    (h : rowGroup st r = some (st1, g)) :
    alookup st1.nameMap (pyStrip r.author_name) = some g := by
  rcases rowGroup_spec st r with h0 | ⟨g', he, hn⟩ | ⟨g', he, _, _⟩ | ⟨he, _, _, _⟩
  · rw [h0] at h
    cases h
  · rw [he] at h
    injection h with h'
    have h1 : st = st1 := congrArg Prod.fst h'
    have h2 : g' = g := congrArg Prod.snd h'
    rw [← h1, ← h2]
    exact hn
  · rw [he] at h
    injection h with h'
    have h1 : ({ st with nameMap := (pyStrip r.author_name, g') :: st.nameMap } : AggState)
        = st1 := congrArg Prod.fst h'
    have h2 : g' = g := congrArg Prod.snd h'
    rw [← h1, ← h2]
    show alookup ((pyStrip r.author_name, g') :: st.nameMap) (pyStrip r.author_name) = some g'
    rw [alookup, if_pos rfl]
  · rw [he] at h
    injection h with h'
    have h1 : ({ st with
        nameMap := (pyStrip r.author_name, st.counter) :: st.nameMap,
        normMap := (normalize_name (pyStrip r.author_name), st.counter) :: st.normMap,
        names := (st.counter, normalize_name (pyStrip r.author_name)) :: st.names,
        counter := st.counter + 1 } : AggState) = st1 := congrArg Prod.fst h'
    have h2 : st.counter = g := congrArg Prod.snd h'
    rw [← h1, ← h2]
    show alookup ((pyStrip r.author_name, st.counter) :: st.nameMap)
      (pyStrip r.author_name) = some st.counter
    rw [alookup, if_pos rfl]

theorem stepRow_nameMap_mono {st : AggState} {r : Row} {k : PyStr} {g : Nat}
    (h : alookup st.nameMap k = some g) : alookup (stepRow st r).nameMap k = some g := by
  rcases rowGroup_spec st r with hnone | ⟨g0, heq, _⟩ | ⟨g0, heq, hnm, _⟩ | ⟨heq, _, hnm, _⟩
  · rw [stepRow_of_none hnone]
    exact h
  · rw [stepRow_of_some heq]
    exact h
  · rw [stepRow_of_some heq]
    show alookup ((pyStrip r.author_name, g0) :: st.nameMap) k = some g
    rw [alookup]
    by_cases hkk : k = pyStrip r.author_name
    · rw [hkk, hnm] at h
      cases h
    · rw [if_neg hkk]
      exact h
  · rw [stepRow_of_some heq]
    show alookup ((pyStrip r.author_name, st.counter) :: st.nameMap) k = some g
    rw [alookup]
    by_cases hkk : k = pyStrip r.author_name
    · rw [hkk, hnm] at h
      cases h
    · rw [if_neg hkk]
      exact h

theorem stepRow_data_le (st : AggState) (r : Row) (g : Nat) :
    GDle (st.data g) ((stepRow st r).data g) := by
  cases heq : rowGroup st r with
  | none =>
    rw [stepRow_of_none heq]
    exact GDle_refl _
  | some p =>
    obtain ⟨st1, g0⟩ := p
    have hd : st1.data = st.data := rowGroup_some_data heq
    rw [stepRow_of_some heq]
    show GDle (st.data g)
      (if g = g0 then updateGroupData r (pyStrip r.id) (st1.data g0) else st1.data g)
    by_cases hg : g = g0
    · rw [if_pos hg, hd, hg]
      exact updateGD_le r (pyStrip r.id) (st.data g0)
    · rw [if_neg hg, hd]
      exact GDle_refl _

theorem stepRow_data_self {st st1 : AggState} {r : Row} {g : Nat}
    (h : rowGroup st r = some (st1, g)) :
    (stepRow st r).data g = updateGroupData r (pyStrip r.id) (st.data g) := by
  rw [stepRow_of_some h]
  show (if g = g then updateGroupData r (pyStrip r.id) (st1.data g) else st1.data g) =
    updateGroupData r (pyStrip r.id) (st.data g)
  rw [if_pos rfl, rowGroup_some_data h]

theorem stepRow_nameMap_self {st st1 : AggState} {r : Row} {g : Nat}
    (h : rowGroup st r = some (st1, g)) :
    alookup (stepRow st r).nameMap (pyStrip r.author_name) = some g := by
  rw [stepRow_of_some h]
  show alookup st1.nameMap (pyStrip r.author_name) = some g
  exact rowGroup_name_hit h

theorem absorbed_stepRow {r r' : Row} {st : AggState} (h : absorbed r st) :
    absorbed r (stepRow st r') := by
  rcases h with h1 | h2 | ⟨g, hname, ha, hw, hso, hsp, hc, hy, hi, hco, haf⟩
  · exact Or.inl h1
  · exact Or.inr (Or.inl h2)
  · have hle := stepRow_data_le st r' g
    refine Or.inr (Or.inr ⟨g, stepRow_nameMap_mono hname, ?_, ?_, ?_, ?_, ?_, ?_, ?_, ?_, ?_⟩)
    · exact fun hne => hle.1 _ (ha hne)
    · exact hle.2.1 _ hw
    · exact fun hne => hle.2.2.2.2.2.1 _ (hso hne)
    · exact fun hm => hle.2.2.1 _ (hsp hm)
    · exact fun v hv => hle.2.2.2.1 _ (hc v hv)
    · exact fun y hy' => hle.2.2.2.2.1 _ (hy y hy')
    · exact fun i hi' => hle.2.2.2.2.2.2.1 _ (hi i hi')
    · exact fun c hc' => hle.2.2.2.2.2.2.2.1 _ (hco c hc')
    · exact fun a ha' => hle.2.2.2.2.2.2.2.2 _ (haf a ha')

theorem foldl_absorbed {r : Row} : ∀ (l : List Row) (st : AggState), absorbed r st →
    absorbed r (List.foldl stepRow st l) := by
  intro l
  induction l with
  | nil => exact fun st h => h
  | cons x t ih => exact fun st h => ih (stepRow st x) (absorbed_stepRow h)

theorem absorbed_after_step (st : AggState) (r : Row) : absorbed r (stepRow st r) := by
  by_cases hn : pyStrip r.author_name = []
  · exact Or.inl hn
  by_cases hw : pyStrip r.id = []
  · exact Or.inr (Or.inl hw)
  cases heq : rowGroup st r with
  | none =>
    exfalso
    unfold rowGroup at heq
    rw [if_neg hn, if_neg hw] at heq
    cases heq
  | some p =>
    obtain ⟨st1, g⟩ := p
    refine Or.inr (Or.inr ⟨g, stepRow_nameMap_self heq, ?_, ?_, ?_, ?_, ?_, ?_, ?_, ?_, ?_⟩)
    · intro hne
      rw [stepRow_data_self heq]
      exact updateGD_mem_author r _ _ hne
    · rw [stepRow_data_self heq]
      exact updateGD_mem_work r _ _
    · intro hne
      rw [stepRow_data_self heq]
      exact updateGD_mem_source r _ _ hne
    · intro hm
      rw [stepRow_data_self heq]
      exact updateGD_mem_specific r _ _ hm
    · intro v hv
      rw [stepRow_data_self heq]
      exact updateGD_cited_nn r _ _ v hv
    · intro y hy
      rw [stepRow_data_self heq]
      exact updateGD_mem_years r _ _ y hy
    · intro i hi
      rw [stepRow_data_self heq]
      exact updateGD_mem_insts r _ _ i hi
    · intro c hc
      rw [stepRow_data_self heq]
      exact updateGD_mem_countries r _ _ c hc
    · intro a ha
      rw [stepRow_data_self heq]
      exact updateGD_mem_affs r _ _ a ha

theorem stepRow_absorbed_eq {st : AggState} {r : Row} (hsort : SortedState st)
    (h : absorbed r st) : stepRow st r = st := by
  rcases h with h1 | h2 | ⟨g, hname, ha, hw0, hso, hsp, hc, hy, hi, hco, haf⟩
  · refine stepRow_of_none ?_
    unfold rowGroup
    rw [if_pos h1]
  · refine stepRow_of_none ?_
    unfold rowGroup
    by_cases hn : pyStrip r.author_name = []
    · rw [if_pos hn]
    · rw [if_neg hn, if_pos h2]
  · by_cases hn : pyStrip r.author_name = []
    · refine stepRow_of_none ?_
      unfold rowGroup
      rw [if_pos hn]
    by_cases hw : pyStrip r.id = []
    · refine stepRow_of_none ?_
      unfold rowGroup
      rw [if_neg hn, if_pos hw]
    have heq : rowGroup st r = some (st, g) := by
      unfold rowGroup
      rw [if_neg hn, if_neg hw, hname]
    rw [stepRow_of_some heq]
    have hd : updateGroupData r (pyStrip r.id) (st.data g) = st.data g :=
      updateGD_noop r (pyStrip r.id) (st.data g) (hsort g) ha hw0 hso hsp hc hy hi hco haf
    have hfun : (fun g' => if g' = g then updateGroupData r (pyStrip r.id) (st.data g)
        else st.data g') = st.data := by
      funext g'
      by_cases hg : g' = g
      · rw [if_pos hg, hd, hg]
      · rw [if_neg hg]
    rw [hfun]

/-- C8, counterexample: the aggregator is keyed by author NAME, not by the
(work_id, author_id) tuple, so removing rows that only repeat a
(work_id, author_id) tuple can change the output.  Rows X and Y share the
tuple (W1, A1) under two different raw names; on both rows the aggregator
makes two author groups, on the tuple-deduplicated sequence only one, and
the outputs differ.  The claimed identity fails on the code. -/
theorem claim_C8_counterexample :
    aggregate_authors [c8RowX, c8RowY] ≠ aggregate_authors (dedupByPair [c8RowX, c8RowY]) := by
  decide

/-- C8, amended: duplicating a WHOLE row is invisible to the aggregator -
appending to the input any row it already contains leaves the aggregated
output unchanged (every set insertion and the first-value citation record
are idempotent), so re-running on a sequence with whole-row duplicates
appended equals running on the original sequence. -/
theorem claim_C8_amended_duplicate_row_noop (rows : List Row) (r : Row) (h : r ∈ rows) :
    aggregate_authors (rows ++ [r]) = aggregate_authors rows := by
  obtain ⟨s, t, rfl⟩ := List.append_of_mem h
  have hstep : foldState ((s ++ r :: t) ++ [r]) = stepRow (foldState (s ++ r :: t)) r := by
    unfold foldState
    rw [List.foldl_append]
    rfl
  have habs : absorbed r (foldState (s ++ r :: t)) := by
    unfold foldState
    rw [List.foldl_append]
    show absorbed r (List.foldl stepRow (stepRow (List.foldl stepRow {} s) r) t)
    exact foldl_absorbed t _ (absorbed_after_step _ r)
  have heq : stepRow (foldState (s ++ r :: t)) r = foldState (s ++ r :: t) :=
    stepRow_absorbed_eq (foldState_sorted _) habs
  unfold aggregate_authors
  rw [hstep, heq]

theorem claim_C8_amended_duplicate_row_noop_witness :
    rowAnn ∈ [rowAnn] ∧
    aggregate_authors ([rowAnn] ++ [rowAnn]) = aggregate_authors [rowAnn] :=
  ⟨by decide, claim_C8_amended_duplicate_row_noop [rowAnn] rowAnn (by decide)⟩
